import Mathlib

/-!
Verification of the type-definition generation pipeline
(`crates/cli/src/utils/typedef.rs`): indentation normalizer, record
loader, ordering policy, definition merger, and declaration emitter.

Strings are modelled as `List Char` (`Str`).  Rust string comparison is
byte-wise on UTF-8, which coincides with code-point lexicographic order,
so `cmpStr` compares code points.  `trim` is modelled for the ASCII
whitespace characters, which are the only ones occurring in this
pipeline's data.
-/

namespace Typedef

abbrev Str := List Char

/-- Whitespace test used by `trim` (ASCII fragment of Rust
`char::is_whitespace`). -/
def isWsChar (c : Char) : Bool :=
  c = ' ' || c = '\t' || c = '\r' || c = '\n'

/-- Drop leading whitespace, as Rust `str::trim_start`. -/
def trimLeft : Str → Str
  | [] => []
  | c :: cs => if isWsChar c then trimLeft cs else c :: cs

/-- Drop trailing whitespace, as Rust `str::trim_end`. -/
def trimRight (s : Str) : Str :=
  (trimLeft s.reverse).reverse

/-- Rust `str::trim`. -/
def trim (s : Str) : Str :=
  trimRight (trimLeft s)

/-- `" ".repeat n`. -/
def spaces (n : Nat) : Str :=
  List.replicate n ' '

/-- Split at every newline character; always returns at least one
segment. -/
def splitNl : Str → List Str
  | [] => [[]]
  | c :: cs =>
    if c = '\n' then [] :: splitNl cs
    else
      match splitNl cs with
      | [] => [[c]]
      | l :: ls => (c :: l) :: ls

/-- Join segments with newline characters. -/
def joinNl : List Str → Str
  | [] => []
  | [l] => l
  | l :: ls => l ++ '\n' :: joinNl ls

/-- Rust `str::ends_with('\n')`. -/
def endsNl (s : Str) : Bool :=
  s.getLast? = some '\n'

/-- Remove one trailing carriage return, used by `lines` on segments
that were terminated by a newline. -/
def stripCR (l : Str) : Str :=
  if l.getLast? = some '\r' then l.dropLast else l

/-- Strip carriage returns from every segment except the last (the last
segment was not newline-terminated). -/
def stripAllButLast : List Str → List Str
  | [] => []
  | [l] => [l]
  | l :: ls => stripCR l :: stripAllButLast ls

/-- Rust `str::lines`: split on `'\n'`, drop the trailing empty segment
produced by a final newline, and strip a `'\r'` preceding each
newline. -/
def rlines (s : Str) : List Str :=
  if s.isEmpty then []
  else if endsNl s then ((splitNl s).dropLast).map stripCR
  else stripAllButLast (splitNl s)

/-- Per-line pass of `correct_str_indent`: the `map` closure with its
mutable `bracket_depth`, made explicit as a parameter. -/
def indentLines (indent : Nat) : Nat → List Str → List Str
  | _, [] => []
  | depth, l :: ls =>
    let t := trim l
    if t.isEmpty then
      [] :: indentLines indent depth ls
    else
      let isCom := t.head? = some '*'
      let isClose := t.getLast? = some '\x7d'
      let isOpen := t.getLast? = some '\x7b'
      if isOpen && !isCom then
        (spaces (indent + depth * 2) ++ t) :: indentLines indent (depth + 1) ls
      else
        let d' := if isClose && decide (depth > 0) && !isCom then depth - 1 else depth
        (spaces (indent + d' * 2 + (if isCom then 1 else 0)) ++ t)
          :: indentLines indent d' ls

/-- `correct_str_indent` from the source: re-indent every line from
brace depth, then restore the trailing newline eaten by `lines`. -/
def correct_str_indent (src : Str) (indent : Nat) : Str :=
  let result := joinNl (indentLines indent 0 (rlines src))
  if endsNl src then result ++ ['\n'] else result

/-- `TypeDefKind` from the source. -/
inductive TypeDefKind where
  | Const
  | Fn
  | Struct
  | Impl
  | Enum
  | Interface
  deriving DecidableEq, Repr

/-- `TypeDefLine` from the source.  The Rust field `def` is a Lean
keyword and is rendered `defn`. -/
structure TypeDefLine where
  kind : TypeDefKind
  name : Str
  original_name : Option Str
  defn : Str
  js_doc : Option Str
  js_mod : Option Str
  deriving DecidableEq, Repr

/-- `Option::unwrap_or_default` on strings. -/
def optStr : Option Str → Str
  | none => []
  | some s => s

/-- Code-point comparison of characters; agrees with Rust's byte-wise
`char`/UTF-8 ordering. -/
def cmpChar (a b : Char) : Ordering :=
  if a.toNat < b.toNat then .lt
  else if b.toNat < a.toNat then .gt
  else .eq

/-- Lexicographic comparison of strings, as Rust `String::cmp`. -/
def cmpStr : Str → Str → Ordering
  | [], [] => .eq
  | [], _ :: _ => .lt
  | _ :: _, [] => .gt
  | a :: as, b :: bs =>
    match cmpChar a b with
    | .eq => cmpStr as bs
    | o => o

/-- The comparator given to `defs.sort_by` in
`IntermidiateTypeDefFile::from`: structs first, then by name. -/
def tdCmp (a b : TypeDefLine) : Ordering :=
  match a.kind with
  | .Struct =>
    match b.kind with
    | .Struct => cmpStr a.name b.name
    | _ => .lt
  | _ =>
    match b.kind with
    | .Struct => .gt
    | _ => cmpStr a.name b.name

/-- Non-strict order induced by `tdCmp`. -/
def tdLe (a b : TypeDefLine) : Prop :=
  tdCmp a b ≠ Ordering.gt

instance : DecidableRel tdLe := fun a b => by
  unfold tdLe; infer_instance

/-- Rust `Vec::sort_by` is a stable sort; a stable sort for a total
preorder has a unique result, so it is modelled by a stable insertion
sort. -/
def sortDefs (defs : List TypeDefLine) : List TypeDefLine :=
  List.insertionSort tdLe defs

/-- `TypeDefLine::into_pretty_print`: render one record from its
per-kind template, then normalize indentation. -/
def into_pretty_print (l : TypeDefLine) (indent : Nat) : Str :=
  let s : Str :=
    match l.kind with
    | .Interface =>
      optStr l.js_doc ++ ("export interface ").data ++ l.name
        ++ (" \x7b\n").data ++ l.defn ++ ("\n\x7d\n\n").data
    | .Enum =>
      optStr l.js_doc ++ ("export const enum ").data ++ l.name
        ++ (" \x7b\n").data ++ l.defn ++ ("\n\x7d\n\n").data
    | .Struct =>
      let base : Str :=
        optStr l.js_doc ++ ("export class ").data ++ l.name
          ++ (" \x7b\n").data ++ l.defn ++ ("\n\x7d").data
      match l.original_name with
      | some origName =>
        if origName ≠ l.name then
          base ++ ('\n' :: ("export type ").data) ++ origName ++ (" = ").data
            ++ l.name ++ ("\n\n").data
        else base ++ ("\n\n").data
      | none => base ++ ("\n\n").data
    | _ => optStr l.js_doc ++ l.defn ++ ("\n").data
  correct_str_indent s indent

def TOP_LEVEL_NAMESPACE : Str := ("__TOP_LEVEL__").data

def TYPE_DEF_HEADER : Str :=
  ("/* tslint:disable */\n/* eslint-disable */\n\n/* auto-generated by NAPI-RS */\n\n").data

/-- The fixed `ExternalObject` preamble pushed by `into_dts`. -/
def EXTERNAL_OBJECT_PREAMBLE : Str :=
  ("export class ExternalObject<T> \x7b\n  readonly '': \x7b\n    readonly '': unique symbol\n    [K: symbol]: T\n  \x7d\n\x7d\n\n").data

/-- The grouping key of a record: its `js_mod` or the top-level
sentinel. -/
def nsKey (l : TypeDefLine) : Str :=
  match l.js_mod with
  | some m => m
  | none => TOP_LEVEL_NAMESPACE

/-- The `HashMap<String, Vec<TypeDefLine>>` of `preprocess`, modelled
as an association list (iteration order is irrelevant: the emitter
sorts by key). -/
abbrev Groups := List (Str × List TypeDefLine)

def findGroup (gs : Groups) (k : Str) : Option (List TypeDefLine) :=
  (gs.find? (fun p => p.1 = k)).map (fun p => p.2)

/-- `HashMap::entry(k).or_insert_with(Vec::new)` key-creation effect. -/
def ensureGroup (gs : Groups) (k : Str) : Groups :=
  match findGroup gs k with
  | some _ => gs
  | none => gs ++ [(k, [])]

/-- Push a line at the end of group `k` (present by construction). -/
def pushGroup (gs : Groups) (k : Str) (l : TypeDefLine) : Groups :=
  gs.map (fun p => if p.1 = k then (p.1, p.2 ++ [l]) else p)

def groupLen (gs : Groups) (k : Str) : Nat :=
  match findGroup gs k with
  | some g => g.length
  | none => 0

/-- Apply `f` to element `i` of a list. -/
def modifyIdx {α : Type} : List α → Nat → (α → α) → List α
  | [], _, _ => []
  | a :: as, 0, f => f a :: as
  | a :: as, i + 1, f => a :: modifyIdx as i f

/-- Apply `f` to element `i` of group `k`. -/
def modifyGroup (gs : Groups) (k : Str) (i : Nat) (f : TypeDefLine → TypeDefLine) : Groups :=
  gs.map (fun p => if p.1 = k then (p.1, modifyIdx p.2 i f) else p)

/-- Read the record a registered `*mut TypeDefLine` points at: group
key plus index inside that group's vector. -/
def getAt (gs : Groups) (p : Str × Nat) : Option TypeDefLine :=
  match findGroup gs p.1 with
  | some g => g[p.2]?
  | none => none

/-- The `class_defs: HashMap<String, *mut TypeDefLine>` registry: a
raw pointer into a group's vector is modelled by the stable pair
(group key, index), which the `with_capacity` reservation keeps valid
in the source. -/
abbrev ClassDefs := List (Str × (Str × Nat))

def lookupCD (cd : ClassDefs) (n : Str) : Option (Str × Nat) :=
  (cd.find? (fun p => p.1 = n)).map (fun p => p.2)

def insertCD : ClassDefs → Str → (Str × Nat) → ClassDefs
  | [], n, v => [(n, v)]
  | p :: rest, n, v =>
    if p.1 = n then (n, v) :: rest else p :: insertCD rest n v

structure PreState where
  groups : Groups
  classDefs : ClassDefs
  deriving Repr

/-- The `def` accumulation done by `and_modify` on an impl: append
with a newline separator when the target's def is non-empty. -/
def appendDef (d frag : Str) : Str :=
  if d.isEmpty then frag else d ++ '\n' :: frag

/-- One iteration of the loop in `TypeDefLine::preprocess`. -/
def processLine (S : PreState) (l : TypeDefLine) : PreState :=
  let k := nsKey l
  let gs := ensureGroup S.groups k
  match l.kind with
  | .Struct =>
    { groups := pushGroup gs k l
      classDefs := insertCD S.classDefs l.name (k, groupLen gs k) }
  | .Impl =>
    match lookupCD S.classDefs l.name with
    | some p =>
      { groups := modifyGroup gs p.1 p.2 (fun e => { e with defn := appendDef e.defn l.defn })
        classDefs := S.classDefs }
    | none => { groups := gs, classDefs := S.classDefs }
  | _ => { groups := pushGroup gs k l, classDefs := S.classDefs }

def processLines (S : PreState) (ls : List TypeDefLine) : PreState :=
  ls.foldl processLine S

/-- `TypeDefLine::preprocess`. -/
def preprocess (lines : List TypeDefLine) : Groups :=
  (processLines ⟨[], []⟩ lines).groups

/-- String order used by `sort_by_key` over namespace keys. -/
def strLe (a b : Str) : Prop :=
  cmpStr a b ≠ Ordering.gt

instance : DecidableRel strLe := fun a b => by
  unfold strLe; infer_instance

/-- `groupped_lines.sort_by_key(|g| g.0.clone())` (stable; keys are
unique so any sort agreeing with the order is faithful). -/
def sortGroups (gs : Groups) : Groups :=
  List.insertionSort (fun a b => strLe a.1 b.1) gs

/-- Emission of one namespace group inside `into_dts`. -/
def emitGroup (dts : Str) (ns : Str) (lines : List TypeDefLine) : Str :=
  if ns = TOP_LEVEL_NAMESPACE then
    lines.foldl (fun d l => d ++ into_pretty_print l 0) dts
  else
    let d := dts ++ ("export namespace ").data ++ ns ++ (" \x7b\n").data
    let d := lines.foldl (fun d' l => d' ++ into_pretty_print l 2) d
    d ++ ("\x7d\n").data

/-- `IntermidiateTypeDefFile::into_dts`. -/
def into_dts (defs : List TypeDefLine) (with_header : Bool) : Except Str Str :=
  if defs.isEmpty then .error (("No type definitions found").data)
  else
    let dts : Str := if with_header then TYPE_DEF_HEADER else []
    let dts := dts ++ EXTERNAL_OBJECT_PREAMBLE
    let groupped := sortGroups (preprocess defs)
    let dts := groupped.foldl (fun d p => emitGroup d p.1 p.2) dts
    .ok (if endsNl dts then dts else dts ++ ['\n'])

/-- Modelled from the spec: the record loader
(`IntermidiateTypeDefFile::from`) reads the backing file and
deserializes each non-empty line with `serde_json`, both external to
this repository; the source is modelled as `none` when it cannot be
opened or read, and deserialization as a `parse` parameter returning
`none` on a malformed line.  The source's `unwrap` calls abort the
load, modelled as the `none` outcome. -/
def loadRecords (source : Option Str) (parse : Str → Option TypeDefLine) :
    Option (List TypeDefLine) :=
  match source with
  | none => none
  | some content =>
    (rlines content).foldl
      (fun acc line =>
        match acc with
        | none => none
        | some ds =>
          if line.isEmpty then some ds
          else
            match parse line with
            | none => none
            | some d => some (ds ++ [d]))
      (some [])

/-! ### Lemmas about `trim` -/

theorem trimLeft_idem (s : Str) : trimLeft (trimLeft s) = trimLeft s := by
  induction s with
  | nil => rfl
  | cons c cs ih =>
    by_cases h : isWsChar c
    · simp [trimLeft, h, ih]
    · simp [trimLeft, h]

theorem trimLeft_head_not_ws {s : Str} {c : Char} {cs : Str}
    (h : trimLeft s = c :: cs) : isWsChar c = false := by
  induction s with
  | nil => simp [trimLeft] at h
  | cons a as ih =>
    by_cases ha : isWsChar a
    · simp [trimLeft, ha] at h; exact ih h
    · simp [trimLeft, ha] at h
      simp [← h.1, Bool.not_eq_true] at ha ⊢
      exact ha

theorem trimLeft_suffix (s : Str) : trimLeft s <:+ s := by
  induction s with
  | nil => exact List.nil_suffix
  | cons c cs ih =>
    by_cases h : isWsChar c
    · simpa [trimLeft, h] using ih.trans (List.suffix_cons c cs)
    · simp [trimLeft, h]

theorem mem_trimLeft {a : Char} {s : Str} (h : a ∈ trimLeft s) : a ∈ s :=
  (trimLeft_suffix s).subset h

theorem mem_trim {a : Char} {s : Str} (h : a ∈ trim s) : a ∈ s := by
  unfold trim trimRight at h
  rw [List.mem_reverse] at h
  have h2 := mem_trimLeft h
  rw [List.mem_reverse] at h2
  exact mem_trimLeft h2

/-- A string whose two ends carry no whitespace. -/
def noWsEnds (t : Str) : Prop :=
  (∀ c, t.head? = some c → isWsChar c = false) ∧
  (∀ c, t.getLast? = some c → isWsChar c = false)

theorem trimLeft_eq_self {t : Str}
    (h : ∀ c, t.head? = some c → isWsChar c = false) : trimLeft t = t := by
  cases t with
  | nil => rfl
  | cons c cs => simp [trimLeft, h c rfl]

theorem trim_eq_self {t : Str} (h : noWsEnds t) : trim t = t := by
  unfold trim
  rw [trimLeft_eq_self h.1]
  unfold trimRight
  rw [trimLeft_eq_self, List.reverse_reverse]
  intro c hc
  rw [List.head?_reverse] at hc
  exact h.2 c hc

theorem getLast?_of_suffix {v s : Str} (h : v <:+ s) (hne : v ≠ []) :
    v.getLast? = s.getLast? := by
  obtain ⟨w, rfl⟩ := h
  exact (List.getLast?_append_of_ne_nil w hne).symm

theorem trim_noWsEnds (s : Str) : noWsEnds (trim s) := by
  constructor
  · intro c hc
    unfold trim trimRight at hc
    rw [List.head?_reverse] at hc
    cases htl : trimLeft (trimLeft s).reverse with
    | nil => rw [htl] at hc; simp at hc
    | cons a as =>
      rw [htl] at hc
      have hsuf := trimLeft_suffix (trimLeft s).reverse
      rw [htl] at hsuf
      rw [getLast?_of_suffix hsuf (by simp), List.getLast?_reverse] at hc
      cases hu : trimLeft s with
      | nil => rw [hu] at hc; simp at hc
      | cons b bs =>
        rw [hu] at hc
        simp at hc
        rw [← hc]
        exact trimLeft_head_not_ws hu
  · intro c hc
    unfold trim trimRight at hc
    rw [List.getLast?_reverse] at hc
    cases hu : trimLeft (trimLeft s).reverse with
    | nil =>
      rw [hu] at hc
      simp at hc
    | cons b bs =>
      rw [hu] at hc
      simp at hc
      subst hc
      exact trimLeft_head_not_ws hu

theorem trim_trim (s : Str) : trim (trim s) = trim s :=
  trim_eq_self (trim_noWsEnds s)

theorem trimLeft_spaces_append (k : Nat) (t : Str) :
    trimLeft (spaces k ++ t) = trimLeft t := by
  induction k with
  | zero => rfl
  | succ n ih => simpa [spaces, List.replicate_succ, trimLeft, isWsChar] using ih

theorem trim_spaces_append (k : Nat) (t : Str) :
    trim (spaces k ++ t) = trim t := by
  unfold trim
  rw [trimLeft_spaces_append]

/-! ### Lemmas about `splitNl`, `joinNl`, `rlines` -/

theorem splitNl_ne_nil (s : Str) : splitNl s ≠ [] := by
  cases s with
  | nil => simp [splitNl]
  | cons c cs =>
    by_cases h : c = '\n'
    · simp [splitNl, h]
    · simp only [splitNl, if_neg h]
      cases htl : splitNl cs <;> simp

theorem mem_splitNl_no_nl {l : Str} {s : Str} (h : l ∈ splitNl s) : '\n' ∉ l := by
  induction s generalizing l with
  | nil =>
    simp [splitNl] at h
    simp [h]
  | cons c cs ih =>
    by_cases hc : c = '\n'
    · simp [splitNl, hc] at h
      rcases h with h | h
      · simp [h]
      · exact ih h
    · simp only [splitNl, if_neg hc] at h
      cases htl : splitNl cs with
      | nil => exact absurd htl (splitNl_ne_nil cs)
      | cons a as =>
        rw [htl] at h
        rcases List.mem_cons.mp h with h | h
        · subst h
          intro hmem
          rcases List.mem_cons.mp hmem with h | h
          · exact hc h.symm
          · exact ih (htl ▸ List.mem_cons_self a as) h
        · exact ih (htl ▸ List.mem_cons_of_mem a h)

theorem splitNl_cons_not_nl {c : Char} (hc : ¬ c = '\n') (cs : Str) :
    splitNl (c :: cs) =
      (c :: (splitNl cs).headI) :: (splitNl cs).tail := by
  simp only [splitNl, if_neg hc]
  cases htl : splitNl cs with
  | nil => exact absurd htl (splitNl_ne_nil cs)
  | cons a as => simp [List.headI]

theorem splitNl_no_nl {l : Str} (h : '\n' ∉ l) : splitNl l = [l] := by
  induction l with
  | nil => rfl
  | cons c cs ih =>
    have hc : ¬ c = '\n' := fun he => h (he ▸ List.mem_cons_self c cs)
    have hcs : '\n' ∉ cs := fun hm => h (List.mem_cons_of_mem c hm)
    rw [splitNl_cons_not_nl hc, ih hcs]
    simp [List.headI]

theorem splitNl_append_nl {a : Str} (h : '\n' ∉ a) (b : Str) :
    splitNl (a ++ '\n' :: b) = a :: splitNl b := by
  induction a with
  | nil => simp [splitNl]
  | cons c cs ih =>
    have hc : ¬ c = '\n' := fun he => h (he ▸ List.mem_cons_self c cs)
    have hcs : '\n' ∉ cs := fun hm => h (List.mem_cons_of_mem c hm)
    rw [List.cons_append, splitNl_cons_not_nl hc, ih hcs]
    simp [List.headI]

theorem splitNl_joinNl {ys : List Str} (hne : ys ≠ [])
    (hnl : ∀ l ∈ ys, '\n' ∉ l) : splitNl (joinNl ys) = ys := by
  induction ys with
  | nil => exact absurd rfl hne
  | cons l ls ih =>
    cases ls with
    | nil => exact splitNl_no_nl (hnl l (List.mem_cons_self l []))
    | cons l2 ls2 =>
      have h1 : '\n' ∉ l := hnl l (List.mem_cons_self _ _)
      show splitNl (l ++ '\n' :: joinNl (l2 :: ls2)) = _
      rw [splitNl_append_nl h1]
      rw [ih (by simp) (fun x hx => hnl x (List.mem_cons_of_mem l hx))]

theorem splitNl_joinNl_concat_nl {ys : List Str} (hne : ys ≠ [])
    (hnl : ∀ l ∈ ys, '\n' ∉ l) :
    splitNl (joinNl ys ++ ['\n']) = ys ++ [[]] := by
  induction ys with
  | nil => exact absurd rfl hne
  | cons l ls ih =>
    cases ls with
    | nil =>
      show splitNl (l ++ '\n' :: []) = _
      rw [splitNl_append_nl (hnl l (List.mem_cons_self l []))]
      rfl
    | cons l2 ls2 =>
      have h1 : '\n' ∉ l := hnl l (List.mem_cons_self _ _)
      show splitNl ((l ++ '\n' :: joinNl (l2 :: ls2)) ++ ['\n']) = _
      rw [List.append_assoc, List.cons_append, splitNl_append_nl h1]
      rw [ih (by simp) (fun x hx => hnl x (List.mem_cons_of_mem l hx))]
      rfl

theorem joinNl_concat_nil {zs : List Str} (hne : zs ≠ []) :
    joinNl (zs ++ [[]]) = joinNl zs ++ ['\n'] := by
  induction zs with
  | nil => exact absurd rfl hne
  | cons l ls ih =>
    cases ls with
    | nil => rfl
    | cons l2 ls2 =>
      have h1 : joinNl ((l :: l2 :: ls2) ++ [[]])
          = l ++ '\n' :: joinNl ((l2 :: ls2) ++ [[]]) := rfl
      rw [h1, ih (by simp)]
      show l ++ '\n' :: (joinNl (l2 :: ls2) ++ ['\n'])
          = (l ++ '\n' :: joinNl (l2 :: ls2)) ++ ['\n']
      simp

theorem endsNl_concat (r : Str) : endsNl (r ++ ['\n']) = true := by
  simp [endsNl]

theorem getLast?_cons_of_ne_nil {c : Char} {b : Str} (h : b ≠ []) :
    (c :: b).getLast? = b.getLast? := by
  cases b with
  | nil => exact absurd rfl h
  | cons a as => simp [List.getLast?_cons_cons]

theorem mem_of_getLast?_eq {l : Str} {a : Char} (h : l.getLast? = some a) :
    a ∈ l := by
  induction l with
  | nil => simp at h
  | cons c cs ih =>
    cases cs with
    | nil =>
      simp [List.getLast?] at h
      simp [h]
    | cons d ds =>
      rw [List.getLast?_cons_cons] at h
      exact List.mem_cons_of_mem c (ih h)

theorem joinNl_eq_nil_iff {ys : List Str} (hne : ys ≠ []) :
    joinNl ys = [] ↔ ys = [[]] := by
  cases ys with
  | nil => exact absurd rfl hne
  | cons l ls =>
    cases ls with
    | nil =>
      constructor
      · intro h; simp [joinNl] at h; simp [h]
      · intro h; simp at h; simp [joinNl, h]
    | cons l2 ls2 =>
      constructor
      · intro h
        have : joinNl (l :: l2 :: ls2) = l ++ '\n' :: joinNl (l2 :: ls2) := rfl
        rw [this] at h
        simp at h
      · intro h; simp at h

theorem endsNl_joinNl {ys : List Str} (hnl : ∀ l ∈ ys, '\n' ∉ l)
    (h : endsNl (joinNl ys) = true) :
    ∃ zs, ys = zs ++ [[]] ∧ zs ≠ [] := by
  induction ys with
  | nil => simp [joinNl, endsNl] at h
  | cons l ls ih =>
    cases ls with
    | nil =>
      exfalso
      simp only [joinNl, endsNl, decide_eq_true_eq] at h
      exact hnl l (List.mem_cons_self _ _) (mem_of_getLast?_eq h)
    | cons l2 ls2 =>
      have hj : joinNl (l :: l2 :: ls2) = l ++ '\n' :: joinNl (l2 :: ls2) := rfl
      by_cases hjoin : joinNl (l2 :: ls2) = []
      · have hl2 : l2 :: ls2 = [[]] := (joinNl_eq_nil_iff (by simp)).mp hjoin
        exact ⟨[l], by rw [hl2]; rfl, by simp⟩
      · have h' : endsNl (joinNl (l2 :: ls2)) = true := by
          rw [hj, endsNl, List.getLast?_append_of_ne_nil _ (by simp : '\n' :: joinNl (l2 :: ls2) ≠ []),
            getLast?_cons_of_ne_nil hjoin] at h
          exact h
        obtain ⟨zs, hzs, hzne⟩ := ih (fun x hx => hnl x (List.mem_cons_of_mem l hx)) h'
        exact ⟨l :: zs, by rw [List.cons_append, ← hzs], by simp⟩

/-! ### The per-line step of the normalizer, and idempotence -/

/-- The emitted text of one line, as a function of the running depth. -/
def lineOut (indent depth : Nat) (l : Str) : Str :=
  let t := trim l
  if t.isEmpty then []
  else
    let isCom := t.head? = some '*'
    let isClose := t.getLast? = some '\x7d'
    let isOpen := t.getLast? = some '\x7b'
    if isOpen && !isCom then spaces (indent + depth * 2) ++ t
    else
      let d' := if isClose && decide (depth > 0) && !isCom then depth - 1 else depth
      spaces (indent + d' * 2 + (if isCom then 1 else 0)) ++ t

/-- The depth handed to the next line. -/
def lineDepth (depth : Nat) (l : Str) : Nat :=
  let t := trim l
  if t.isEmpty then depth
  else
    let isCom := t.head? = some '*'
    let isClose := t.getLast? = some '\x7d'
    let isOpen := t.getLast? = some '\x7b'
    if isOpen && !isCom then depth + 1
    else if isClose && decide (depth > 0) && !isCom then depth - 1
    else depth

theorem indentLines_cons (n d : Nat) (l : Str) (ls : List Str) :
    indentLines n d (l :: ls)
      = lineOut n d l :: indentLines n (lineDepth d l) ls := by
  simp only [indentLines, lineOut, lineDepth]
  split_ifs <;> rfl

theorem trim_lineOut (n d : Nat) (l : Str) :
    trim (lineOut n d l) = trim l := by
  simp only [lineOut]
  by_cases h : (trim l).isEmpty
  · simp only [if_pos h]
    have h0 : trim l = [] := by simpa [List.isEmpty_iff] using h
    rw [h0]
    rfl
  · simp only [if_neg h]
    split_ifs <;> rw [trim_spaces_append, trim_trim]

theorem lineOut_congr (n d : Nat) {l1 l2 : Str} (h : trim l1 = trim l2) :
    lineOut n d l1 = lineOut n d l2 := by
  simp only [lineOut, h]

theorem lineDepth_congr (d : Nat) {l1 l2 : Str} (h : trim l1 = trim l2) :
    lineDepth d l1 = lineDepth d l2 := by
  simp only [lineDepth, h]

theorem indentLines_idem (n : Nat) (xs : List Str) : ∀ d,
    indentLines n d (indentLines n d xs) = indentLines n d xs := by
  induction xs with
  | nil => intro d; rfl
  | cons l ls ih =>
    intro d
    rw [indentLines_cons n d l ls, indentLines_cons n d (lineOut n d l)]
    rw [lineOut_congr n d (trim_lineOut n d l),
      lineDepth_congr d (trim_lineOut n d l)]
    rw [ih (lineDepth d l)]

theorem indentLines_append (n : Nat) (as bs : List Str) : ∀ d,
    indentLines n d (as ++ bs)
      = indentLines n d as ++ indentLines n (as.foldl lineDepth d) bs := by
  induction as with
  | nil => intro d; rfl
  | cons l ls ih =>
    intro d
    rw [List.cons_append, indentLines_cons, indentLines_cons, ih (lineDepth d l)]
    rfl

theorem lineOut_shape (n d : Nat) (l : Str) :
    (trim l = [] ∧ lineOut n d l = [])
      ∨ (trim l ≠ [] ∧ ∃ k, lineOut n d l = spaces k ++ trim l) := by
  simp only [lineOut]
  by_cases h1 : (trim l).isEmpty
  · exact Or.inl ⟨by simpa [List.isEmpty_iff] using h1, by simp [h1]⟩
  · refine Or.inr ⟨by simpa [List.isEmpty_iff] using h1, ?_⟩
    rw [if_neg h1]
    split_ifs <;> exact ⟨_, rfl⟩

theorem lineOut_no_nl {l : Str} (h : '\n' ∉ l) (n d : Nat) :
    '\n' ∉ lineOut n d l := by
  rcases lineOut_shape n d l with ⟨_, hs⟩ | ⟨_, k, hs⟩ <;> rw [hs]
  · simp
  · intro hm
    rcases List.mem_append.mp hm with hm | hm
    · rw [spaces, List.mem_replicate] at hm
      exact absurd hm.2 (by decide)
    · exact h (mem_trim hm)

theorem lineOut_last_not_ws (n d : Nat) (l : Str) :
    ∀ c, (lineOut n d l).getLast? = some c → isWsChar c = false := by
  intro c hc
  rcases lineOut_shape n d l with ⟨_, hs⟩ | ⟨hne, k, hs⟩ <;> rw [hs] at hc
  · simp at hc
  · rw [List.getLast?_append_of_ne_nil _ hne] at hc
    exact (trim_noWsEnds l).2 c hc

theorem indentLines_no_nl {n d : Nat} {xs : List Str}
    (h : ∀ l ∈ xs, '\n' ∉ l) : ∀ o ∈ indentLines n d xs, '\n' ∉ o := by
  induction xs generalizing d with
  | nil => intro o ho; simp [indentLines] at ho
  | cons l ls ih =>
    intro o ho
    rw [indentLines_cons] at ho
    rcases List.mem_cons.mp ho with ho | ho
    · subst ho
      exact lineOut_no_nl (h l (List.mem_cons_self _ _)) n d
    · exact ih (fun x hx => h x (List.mem_cons_of_mem l hx)) o ho

theorem indentLines_last_not_ws {n d : Nat} {xs : List Str} :
    ∀ o ∈ indentLines n d xs, ∀ c, o.getLast? = some c → isWsChar c = false := by
  induction xs generalizing d with
  | nil => intro o ho; simp [indentLines] at ho
  | cons l ls ih =>
    intro o ho
    rw [indentLines_cons] at ho
    rcases List.mem_cons.mp ho with ho | ho
    · subst ho
      exact lineOut_last_not_ws n d l
    · exact ih o ho

theorem stripCR_no_op {l : Str} (h : l.getLast? ≠ some '\r') : stripCR l = l := by
  simp [stripCR, h]

theorem stripAllButLast_no_op {ls : List Str}
    (h : ∀ l ∈ ls, stripCR l = l) : stripAllButLast ls = ls := by
  induction ls with
  | nil => rfl
  | cons l ls2 ih =>
    cases ls2 with
    | nil => rfl
    | cons a as =>
      show stripCR l :: stripAllButLast (a :: as) = l :: a :: as
      rw [h l (List.mem_cons_self _ _), ih (fun x hx => h x (List.mem_cons_of_mem l hx))]

theorem indentLines_no_cr {n d : Nat} {xs : List Str} :
    ∀ o ∈ indentLines n d xs, stripCR o = o := by
  intro o ho
  apply stripCR_no_op
  intro hc
  have := indentLines_last_not_ws o ho '\r' hc
  simp [isWsChar] at this

theorem indentLines_length (n : Nat) (xs : List Str) : ∀ d,
    (indentLines n d xs).length = xs.length := by
  induction xs with
  | nil => intro d; rfl
  | cons l ls ih =>
    intro d
    rw [indentLines_cons]
    simp [ih]

/-! ### Facts about `rlines` -/

theorem mem_stripCR {a : Char} {l : Str} (h : a ∈ stripCR l) : a ∈ l := by
  unfold stripCR at h
  split_ifs at h
  · exact List.dropLast_sublist l |>.subset h
  · exact h

theorem mem_stripAllButLast {y : Str} {ls : List Str}
    (h : y ∈ stripAllButLast ls) : ∃ x ∈ ls, y = x ∨ y = stripCR x := by
  induction ls with
  | nil => simp [stripAllButLast] at h
  | cons l ls2 ih =>
    cases ls2 with
    | nil =>
      simp [stripAllButLast] at h
      exact ⟨l, List.mem_cons_self _ _, Or.inl h⟩
    | cons a as =>
      rcases List.mem_cons.mp h with h | h
      · exact ⟨l, List.mem_cons_self _ _, Or.inr h⟩
      · obtain ⟨x, hx, hy⟩ := ih h
        exact ⟨x, List.mem_cons_of_mem l hx, hy⟩

theorem mem_rlines_no_nl {l : Str} {s : Str} (h : l ∈ rlines s) : '\n' ∉ l := by
  unfold rlines at h
  split_ifs at h
  · simp at h
  · obtain ⟨x, hx, rfl⟩ := List.mem_map.mp h
    intro hm
    exact mem_splitNl_no_nl ((List.dropLast_sublist _).subset hx) (mem_stripCR hm)
  · obtain ⟨x, hx, hy⟩ := mem_stripAllButLast h
    rcases hy with rfl | rfl
    · exact mem_splitNl_no_nl hx
    · intro hm
      exact mem_splitNl_no_nl hx (mem_stripCR hm)

theorem map_stripCR_self {ls : List Str}
    (h : ∀ l ∈ ls, stripCR l = l) : ls.map stripCR = ls := by
  induction ls with
  | nil => rfl
  | cons l ls2 ih =>
    rw [List.map_cons, h l (List.mem_cons_self _ _),
      ih (fun x hx => h x (List.mem_cons_of_mem l hx))]

theorem endsNl_ne_nil {s : Str} (h : endsNl s = true) : s ≠ [] := by
  intro he
  subst he
  simp [endsNl] at h

theorem rlines_of_endsNl {s : Str} (h : endsNl s = true) :
    rlines s = ((splitNl s).dropLast).map stripCR := by
  unfold rlines
  rw [if_neg (by simpa [List.isEmpty_iff] using endsNl_ne_nil h), if_pos h]

theorem rlines_of_not_endsNl {s : Str} (hne : s ≠ []) (h : endsNl s = false) :
    rlines s = stripAllButLast (splitNl s) := by
  unfold rlines
  rw [if_neg (by simpa [List.isEmpty_iff] using hne), if_neg (by simp [h])]

theorem splitNl_length (s : Str) :
    (splitNl s).length = s.count '\n' + 1 := by
  induction s with
  | nil => rfl
  | cons c cs ih =>
    by_cases hc : c = '\n'
    · subst hc
      simp [splitNl, ih, List.count_cons]
    · rw [splitNl_cons_not_nl hc]
      cases htl : splitNl cs with
      | nil => exact absurd htl (splitNl_ne_nil cs)
      | cons a as =>
        have := ih
        rw [htl] at this
        simp at this
        simp [List.count_cons, hc, this]

theorem rlines_ne_nil_of_endsNl {s : Str} (h : endsNl s = true) :
    rlines s ≠ [] := by
  rw [rlines_of_endsNl h]
  have hcount : 1 ≤ s.count '\n' :=
    List.count_pos_iff.mpr (mem_of_getLast?_eq (by simpa [endsNl] using h))
  have hlen : (splitNl s).dropLast.length = s.count '\n' := by
    rw [List.length_dropLast, splitNl_length]
    omega
  intro hmap
  have hl2 := congrArg List.length hmap
  rw [List.length_map, hlen] at hl2
  simp at hl2
  omega

theorem indentLines_singleton_nil (n d : Nat) :
    indentLines n d [[]] = [[]] := rfl

/-! ### Idempotence of the indentation normalizer -/

theorem correct_str_indent_idem (t : Str) (n : Nat) :
    correct_str_indent (correct_str_indent t n) n = correct_str_indent t n := by
  have hynl : ∀ l ∈ indentLines n 0 (rlines t), '\n' ∉ l :=
    indentLines_no_nl (fun l hl => mem_rlines_no_nl hl)
  have hycr : ∀ l ∈ indentLines n 0 (rlines t), stripCR l = l := by
    intro l hl
    apply stripCR_no_op
    intro hc
    have := indentLines_last_not_ws l hl '\r' hc
    simp [isWsChar] at this
  by_cases h : endsNl t = true
  · have hRHS : correct_str_indent t n
        = joinNl (indentLines n 0 (rlines t)) ++ ['\n'] := by
      unfold correct_str_indent
      rw [if_pos h]
    rw [hRHS]
    have hys_ne : indentLines n 0 (rlines t) ≠ [] := by
      intro hnil
      have := congrArg List.length hnil
      rw [indentLines_length] at this
      exact rlines_ne_nil_of_endsNl h (List.length_eq_zero.mp this)
    have hout_ends : endsNl (joinNl (indentLines n 0 (rlines t)) ++ ['\n']) = true :=
      endsNl_concat _
    have hlines : rlines (joinNl (indentLines n 0 (rlines t)) ++ ['\n'])
        = indentLines n 0 (rlines t) := by
      rw [rlines_of_endsNl hout_ends,
        splitNl_joinNl_concat_nl hys_ne hynl, List.dropLast_concat,
        map_stripCR_self hycr]
    unfold correct_str_indent
    rw [if_pos hout_ends, hlines, indentLines_idem]
  · have hRHS : correct_str_indent t n
        = joinNl (indentLines n 0 (rlines t)) := by
      unfold correct_str_indent
      rw [if_neg h]
    rw [hRHS]
    by_cases hout : joinNl (indentLines n 0 (rlines t)) = []
    · rw [hout]
      rfl
    · by_cases he : endsNl (joinNl (indentLines n 0 (rlines t))) = true
      · obtain ⟨zs, hzs, hzne⟩ := endsNl_joinNl hynl he
        have hys_ne : indentLines n 0 (rlines t) ≠ [] := by
          rw [hzs]; simp
        have hlines : rlines (joinNl (indentLines n 0 (rlines t))) = zs := by
          rw [rlines_of_endsNl he, splitNl_joinNl hys_ne hynl, hzs,
            List.dropLast_concat, map_stripCR_self
              (fun x hx => hycr x (by rw [hzs]; exact List.mem_append_left _ hx))]
        have hzs_fix : indentLines n 0 zs = zs := by
          have hfull := indentLines_idem n (rlines t) 0
          rw [hzs, indentLines_append] at hfull
          rw [indentLines_singleton_nil] at hfull
          have := congrArg List.dropLast hfull
          rwa [List.dropLast_concat, List.dropLast_concat] at this
        unfold correct_str_indent
        rw [if_pos he, hlines, hzs_fix]
        rw [hzs, joinNl_concat_nil hzne]
      · have hys_ne : indentLines n 0 (rlines t) ≠ [] := by
          intro hnil
          rw [hnil] at hout
          exact hout rfl
        have hlines : rlines (joinNl (indentLines n 0 (rlines t)))
            = indentLines n 0 (rlines t) := by
          rw [rlines_of_not_endsNl hout (by simpa using he),
            splitNl_joinNl hys_ne hynl, stripAllButLast_no_op hycr]
        unfold correct_str_indent
        rw [if_neg he, hlines, indentLines_idem]

/-! ### Per-line behavior of the normalizer -/

theorem indentLines_blank {l : Str} (hb : trim l = []) (n d : Nat) (ls : List Str) :
    indentLines n d (l :: ls) = [] :: indentLines n d ls := by
  rw [indentLines_cons]
  have h1 : lineOut n d l = [] := by simp [lineOut, hb]
  have h2 : lineDepth d l = d := by simp [lineDepth, hb]
  rw [h1, h2]

theorem indentLines_open {l : Str} (hne : trim l ≠ [])
    (hcom : (trim l).head? ≠ some '*')
    (hop : (trim l).getLast? = some '\x7b') (n d : Nat) (ls : List Str) :
    indentLines n d (l :: ls)
      = (spaces (n + d * 2) ++ trim l) :: indentLines n (d + 1) ls := by
  rw [indentLines_cons]
  have hb : (trim l).isEmpty = false := by simpa [List.isEmpty_iff] using hne
  have h1 : lineOut n d l = spaces (n + d * 2) ++ trim l := by
    simp [lineOut, hb, hop, hcom]
  have h2 : lineDepth d l = d + 1 := by
    simp [lineDepth, hb, hop, hcom]
  rw [h1, h2]

theorem indentLines_close_pos {l : Str} (hne : trim l ≠ [])
    (hcom : (trim l).head? ≠ some '*')
    (hcl : (trim l).getLast? = some '\x7d') {d : Nat} (hd : 0 < d)
    (n : Nat) (ls : List Str) :
    indentLines n d (l :: ls)
      = (spaces (n + (d - 1) * 2) ++ trim l) :: indentLines n (d - 1) ls := by
  rw [indentLines_cons]
  have hb : (trim l).isEmpty = false := by simpa [List.isEmpty_iff] using hne
  have h1 : lineOut n d l = spaces (n + (d - 1) * 2) ++ trim l := by
    simp [lineOut, hb, hcl, hcom, hd]
  have h2 : lineDepth d l = d - 1 := by
    simp [lineDepth, hb, hcl, hcom, hd]
  rw [h1, h2]

theorem indentLines_close_zero {l : Str} (hne : trim l ≠ [])
    (hcom : (trim l).head? ≠ some '*')
    (hcl : (trim l).getLast? = some '\x7d') (n : Nat) (ls : List Str) :
    indentLines n 0 (l :: ls) = (spaces n ++ trim l) :: indentLines n 0 ls := by
  rw [indentLines_cons]
  have hb : (trim l).isEmpty = false := by simpa [List.isEmpty_iff] using hne
  have h1 : lineOut n 0 l = spaces n ++ trim l := by
    simp [lineOut, hb, hcl, hcom]
  have h2 : lineDepth 0 l = 0 := by
    simp [lineDepth, hb, hcl, hcom]
  rw [h1, h2]

theorem indentLines_comment {l : Str} (hne : trim l ≠ [])
    (hcom : (trim l).head? = some '*') (n d : Nat) (ls : List Str) :
    indentLines n d (l :: ls)
      = (spaces (n + d * 2 + 1) ++ trim l) :: indentLines n d ls := by
  rw [indentLines_cons]
  have hb : (trim l).isEmpty = false := by simpa [List.isEmpty_iff] using hne
  have h1 : lineOut n d l = spaces (n + d * 2 + 1) ++ trim l := by
    simp [lineOut, hb, hcom]
  have h2 : lineDepth d l = d := by
    simp [lineDepth, hb, hcom]
  rw [h1, h2]

theorem correct_str_indent_endsNl {t : Str} (h : endsNl t = true) (n : Nat) :
    endsNl (correct_str_indent t n) = true := by
  unfold correct_str_indent
  rw [if_pos h]
  exact endsNl_concat _

/-! ### Order properties of the comparators -/

theorem cmpStr_self (a : Str) : cmpStr a a = Ordering.eq := by
  induction a with
  | nil => rfl
  | cons c cs ih =>
    have : cmpChar c c = Ordering.eq := by simp [cmpChar]
    simp [cmpStr, this, ih]

theorem cmpChar_gt_iff_lt (a b : Char) :
    cmpChar a b = Ordering.gt ↔ cmpChar b a = Ordering.lt := by
  unfold cmpChar
  split_ifs <;> simp_all <;> omega

theorem cmpChar_eq_iff (a b : Char) :
    cmpChar a b = Ordering.eq ↔ a.toNat = b.toNat := by
  unfold cmpChar
  split_ifs <;> simp_all <;> omega

theorem cmpStr_gt_iff_lt (a b : Str) :
    cmpStr a b = Ordering.gt ↔ cmpStr b a = Ordering.lt := by
  induction a generalizing b with
  | nil => cases b <;> simp [cmpStr]
  | cons c cs ih =>
    cases b with
    | nil => simp [cmpStr]
    | cons d ds =>
      simp only [cmpStr]
      cases hcd : cmpChar c d with
      | eq =>
        have : cmpChar d c = Ordering.eq := by
          rw [cmpChar_eq_iff] at hcd ⊢
          omega
        simp [this, ih]
      | lt =>
        have hdc : cmpChar d c = Ordering.gt := by
          rw [cmpChar_gt_iff_lt]
          exact hcd
        simp [hdc]
      | gt =>
        have hdc : cmpChar d c = Ordering.lt := (cmpChar_gt_iff_lt c d).mp hcd
        simp [hdc]

theorem cmpChar_trans_le {a b c : Char}
    (h1 : cmpChar a b ≠ Ordering.gt) (h2 : cmpChar b c ≠ Ordering.gt) :
    cmpChar a c ≠ Ordering.gt := by
  unfold cmpChar at *
  split_ifs at * <;> simp_all <;> omega

theorem cmpChar_eq_trans {a b c : Char}
    (h1 : cmpChar a b = Ordering.eq) (h2 : cmpChar b c = Ordering.eq) :
    cmpChar a c = Ordering.eq := by
  rw [cmpChar_eq_iff] at *
  omega

theorem cmpStr_trans_le {a b c : Str}
    (h1 : cmpStr a b ≠ Ordering.gt) (h2 : cmpStr b c ≠ Ordering.gt) :
    cmpStr a c ≠ Ordering.gt := by
  induction a generalizing b c with
  | nil => cases c <;> simp [cmpStr]
  | cons x xs ih =>
    cases b with
    | nil => simp [cmpStr] at h1
    | cons y ys =>
      cases c with
      | nil => simp [cmpStr] at h2
      | cons z zs =>
        simp only [cmpStr] at h1 h2 ⊢
        cases hxy : cmpChar x y with
        | gt => rw [hxy] at h1; simp at h1
        | eq =>
          rw [hxy] at h1
          cases hyz : cmpChar y z with
          | gt => rw [hyz] at h2; simp at h2
          | eq =>
            rw [hyz] at h2
            rw [cmpChar_eq_trans hxy hyz]
            exact ih h1 h2
          | lt =>
            have hxz : cmpChar x z = Ordering.lt := by
              rw [cmpChar_eq_iff] at hxy
              rw [← cmpChar_gt_iff_lt] at hyz ⊢
              unfold cmpChar at hyz ⊢
              split_ifs at * <;> simp_all <;> omega
            simp [hxz]
        | lt =>
          cases hyz : cmpChar y z with
          | gt => rw [hyz] at h2; simp at h2
          | eq =>
            have hxz : cmpChar x z = Ordering.lt := by
              rw [cmpChar_eq_iff] at hyz
              unfold cmpChar at hxy ⊢
              split_ifs at * <;> simp_all <;> omega
            simp [hxz]
          | lt =>
            have hxz : cmpChar x z = Ordering.lt := by
              unfold cmpChar at hxy hyz ⊢
              split_ifs at * <;> simp_all <;> omega
            simp [hxz]

theorem tdCmp_struct_non {a b : TypeDefLine} (ha : a.kind = TypeDefKind.Struct)
    (hb : b.kind ≠ TypeDefKind.Struct) : tdCmp a b = Ordering.lt := by
  unfold tdCmp
  rw [ha]
  cases hbk : b.kind <;> first
    | exact absurd hbk hb
    | rfl

theorem tdCmp_non_struct {a b : TypeDefLine} (ha : a.kind ≠ TypeDefKind.Struct)
    (hb : b.kind = TypeDefKind.Struct) : tdCmp a b = Ordering.gt := by
  unfold tdCmp
  rw [hb]
  cases hak : a.kind <;> first
    | exact absurd hak ha
    | rfl

theorem tdCmp_struct_struct {a b : TypeDefLine} (ha : a.kind = TypeDefKind.Struct)
    (hb : b.kind = TypeDefKind.Struct) : tdCmp a b = cmpStr a.name b.name := by
  unfold tdCmp
  rw [ha, hb]

theorem tdCmp_non_non {a b : TypeDefLine} (ha : a.kind ≠ TypeDefKind.Struct)
    (hb : b.kind ≠ TypeDefKind.Struct) : tdCmp a b = cmpStr a.name b.name := by
  unfold tdCmp
  cases hak : a.kind <;> cases hbk : b.kind <;> first
    | exact absurd hak ha
    | exact absurd hbk hb
    | rfl

theorem tdLe_trans {a b c : TypeDefLine} (h1 : tdLe a b) (h2 : tdLe b c) :
    tdLe a c := by
  unfold tdLe at *
  by_cases ha : a.kind = TypeDefKind.Struct <;>
    by_cases hb : b.kind = TypeDefKind.Struct <;>
      by_cases hc : c.kind = TypeDefKind.Struct
  · rw [tdCmp_struct_struct ha hb] at h1
    rw [tdCmp_struct_struct hb hc] at h2
    rw [tdCmp_struct_struct ha hc]
    exact cmpStr_trans_le h1 h2
  · rw [tdCmp_struct_non ha hc]
    simp
  · exact absurd (tdCmp_non_struct hb hc) h2
  · rw [tdCmp_struct_non ha hc]
    simp
  · exact absurd (tdCmp_non_struct ha hb) h1
  · exact absurd (tdCmp_non_struct ha hb) h1
  · exact absurd (tdCmp_non_struct hb hc) h2
  · rw [tdCmp_non_non ha hb] at h1
    rw [tdCmp_non_non hb hc] at h2
    rw [tdCmp_non_non ha hc]
    exact cmpStr_trans_le h1 h2

theorem tdLe_total (a b : TypeDefLine) : tdLe a b ∨ tdLe b a := by
  unfold tdLe
  by_cases hg : tdCmp a b = Ordering.gt
  · right
    by_cases ha : a.kind = TypeDefKind.Struct <;>
      by_cases hb : b.kind = TypeDefKind.Struct
    · rw [tdCmp_struct_struct ha hb] at hg
      rw [tdCmp_struct_struct hb ha]
      have hlt := (cmpStr_gt_iff_lt a.name b.name).mp hg
      simp [hlt]
    · rw [tdCmp_struct_non ha hb] at hg
      simp at hg
    · rw [tdCmp_struct_non hb ha]
      simp
    · rw [tdCmp_non_non ha hb] at hg
      rw [tdCmp_non_non hb ha]
      rw [cmpStr_gt_iff_lt] at hg
      simp [hg]
  · exact Or.inl hg

instance : IsTrans TypeDefLine tdLe := ⟨fun _ _ _ => tdLe_trans⟩

instance : IsTotal TypeDefLine tdLe := ⟨tdLe_total⟩

theorem sortDefs_pairwise (defs : List TypeDefLine) :
    (sortDefs defs).Pairwise tdLe :=
  List.sorted_insertionSort tdLe defs

/-! ### Lemmas about the group map and the class registry -/

theorem findGroup_nil (k : Str) : findGroup [] k = none := rfl

theorem lookupCD_nil (n : Str) : lookupCD [] n = none := rfl

theorem findGroup_cons (p : Str × List TypeDefLine) (rest : Groups) (k : Str) :
    findGroup (p :: rest) k = if p.1 = k then some p.2 else findGroup rest k := by
  unfold findGroup
  by_cases h : p.1 = k
  · rw [List.find?_cons_of_pos _ (by simpa using h), if_pos h]
    rfl
  · rw [List.find?_cons_of_neg _ (by simpa using h), if_neg h]

theorem lookupCD_cons (p : Str × (Str × Nat)) (rest : ClassDefs) (n : Str) :
    lookupCD (p :: rest) n = if p.1 = n then some p.2 else lookupCD rest n := by
  unfold lookupCD
  by_cases h : p.1 = n
  · rw [List.find?_cons_of_pos _ (by simpa using h), if_pos h]
    rfl
  · rw [List.find?_cons_of_neg _ (by simpa using h), if_neg h]

theorem pushGroup_cons (p : Str × List TypeDefLine) (rest : Groups) (k : Str)
    (l : TypeDefLine) :
    pushGroup (p :: rest) k l
      = (if p.1 = k then (p.1, p.2 ++ [l]) else p) :: pushGroup rest k l := rfl

theorem modifyGroup_cons (p : Str × List TypeDefLine) (rest : Groups) (k : Str)
    (i : Nat) (f : TypeDefLine → TypeDefLine) :
    modifyGroup (p :: rest) k i f
      = (if p.1 = k then (p.1, modifyIdx p.2 i f) else p) :: modifyGroup rest k i f := rfl

theorem findGroup_append_single (gs : Groups) (k k2 : Str) (g2 : List TypeDefLine) :
    findGroup (gs ++ [(k2, g2)]) k
      = match findGroup gs k with
        | some g => some g
        | none => if k2 = k then some g2 else none := by
  induction gs with
  | nil =>
    simp only [List.nil_append, findGroup_nil]
    rw [findGroup_cons]
    rfl
  | cons p rest ih =>
    rw [List.cons_append, findGroup_cons, findGroup_cons]
    by_cases h : p.1 = k
    · rw [if_pos h, if_pos h]
    · rw [if_neg h, if_neg h, ih]

theorem findGroup_ensureGroup_of_some {gs : Groups} {k' : Str}
    {g : List TypeDefLine} (h : findGroup gs k' = some g) (k : Str) :
    findGroup (ensureGroup gs k) k' = some g := by
  unfold ensureGroup
  cases hk : findGroup gs k with
  | some _ => exact h
  | none => rw [findGroup_append_single, h]

theorem findGroup_ensureGroup_self (gs : Groups) (k : Str) :
    findGroup (ensureGroup gs k) k = some ((findGroup gs k).getD []) := by
  unfold ensureGroup
  cases hk : findGroup gs k with
  | some g => simp [hk]
  | none =>
    rw [findGroup_append_single, hk]
    simp

theorem findGroup_ensureGroup_other {gs : Groups} {k k' : Str} (h : k' ≠ k) :
    findGroup (ensureGroup gs k) k' = findGroup gs k' := by
  unfold ensureGroup
  cases hk : findGroup gs k with
  | some _ => rfl
  | none =>
    rw [findGroup_append_single]
    cases h2 : findGroup gs k' with
    | some _ => rfl
    | none =>
      have hne : ¬ k = k' := fun he => h he.symm
      simp [hne]

theorem findGroup_pushGroup (gs : Groups) (k k' : Str) (l : TypeDefLine) :
    findGroup (pushGroup gs k l) k'
      = if k' = k then (findGroup gs k').map (fun g => g ++ [l])
        else findGroup gs k' := by
  induction gs with
  | nil => by_cases h : k' = k <;> simp [findGroup_nil, pushGroup, h]
  | cons p rest ih =>
    rw [pushGroup_cons, findGroup_cons, findGroup_cons]
    by_cases hp : p.1 = k <;> by_cases hpk : p.1 = k' <;>
      by_cases hk : k' = k <;> simp_all

theorem modifyIdx_getElem?_self {α : Type} (g : List α) (i : Nat) (f : α → α) :
    (modifyIdx g i f)[i]? = (g[i]?).map f := by
  induction g generalizing i with
  | nil => simp [modifyIdx]
  | cons a as ih =>
    cases i with
    | zero => simp [modifyIdx]
    | succ j => simpa [modifyIdx] using ih j

theorem modifyIdx_getElem?_other {α : Type} (g : List α) (i j : Nat) (f : α → α)
    (h : j ≠ i) : (modifyIdx g i f)[j]? = g[j]? := by
  induction g generalizing i j with
  | nil => simp [modifyIdx]
  | cons a as ih =>
    cases i with
    | zero =>
      cases j with
      | zero => exact absurd rfl h
      | succ j2 => simp [modifyIdx]
    | succ i2 =>
      cases j with
      | zero => simp [modifyIdx]
      | succ j2 => simpa [modifyIdx] using ih i2 j2 (fun he => h (by omega))

theorem modifyIdx_map {α β : Type} (g : List α) (i : Nat) (f : α → α)
    (pr : α → β) (h : ∀ e, pr (f e) = pr e) :
    (modifyIdx g i f).map pr = g.map pr := by
  induction g generalizing i with
  | nil => rfl
  | cons a as ih =>
    cases i with
    | zero => simp [modifyIdx, h]
    | succ j => simp [modifyIdx, ih j]

theorem findGroup_modifyGroup (gs : Groups) (k k' : Str) (i : Nat)
    (f : TypeDefLine → TypeDefLine) :
    findGroup (modifyGroup gs k i f) k'
      = if k' = k then (findGroup gs k').map (fun g => modifyIdx g i f)
        else findGroup gs k' := by
  induction gs with
  | nil => by_cases h : k' = k <;> simp [findGroup_nil, modifyGroup, h]
  | cons p rest ih =>
    rw [modifyGroup_cons, findGroup_cons, findGroup_cons]
    by_cases hp : p.1 = k <;> by_cases hpk : p.1 = k' <;>
      by_cases hk : k' = k <;> simp_all

theorem getAt_ensureGroup {gs : Groups} {p : Str × Nat} {e : TypeDefLine}
    (h : getAt gs p = some e) (k : Str) : getAt (ensureGroup gs k) p = some e := by
  unfold getAt at *
  cases hf : findGroup gs p.1 with
  | none => rw [hf] at h; exact absurd h (by simp)
  | some g =>
    rw [hf] at h
    rw [findGroup_ensureGroup_of_some hf k]
    exact h

theorem getAt_pushGroup {gs : Groups} {p : Str × Nat} {e : TypeDefLine}
    (h : getAt gs p = some e) (k : Str) (l : TypeDefLine) :
    getAt (pushGroup gs k l) p = some e := by
  unfold getAt at h ⊢
  rw [findGroup_pushGroup]
  cases hf : findGroup gs p.1 with
  | none => rw [hf] at h; exact absurd h (by simp)
  | some g =>
    rw [hf] at h
    have h2 : g[p.2]? = some e := h
    by_cases hk : p.1 = k
    · rw [if_pos hk]
      have hlt : p.2 < g.length := (List.getElem?_eq_some.mp h2).1
      show (g ++ [l])[p.2]? = some e
      rw [List.getElem?_append, if_pos hlt]
      exact h2
    · rw [if_neg hk]
      exact h2

theorem getAt_modifyGroup_self (gs : Groups) (k : Str) (i : Nat)
    (f : TypeDefLine → TypeDefLine) :
    getAt (modifyGroup gs k i f) (k, i) = (getAt gs (k, i)).map f := by
  unfold getAt
  rw [findGroup_modifyGroup]
  simp only [if_pos rfl]
  cases hf : findGroup gs k with
  | none => simp
  | some g => simp [modifyIdx_getElem?_self]

theorem getAt_modifyGroup_other {gs : Groups} {q : Str × Nat} (k : Str) (i : Nat)
    (f : TypeDefLine → TypeDefLine) (h : q ≠ (k, i)) :
    getAt (modifyGroup gs k i f) q = getAt gs q := by
  unfold getAt
  rw [findGroup_modifyGroup]
  by_cases hk : q.1 = k
  · rw [if_pos hk]
    cases hf : findGroup gs q.1 with
    | none => simp
    | some g =>
      have hij : q.2 ≠ i := by
        intro he
        exact h (Prod.ext hk he)
      simp [modifyIdx_getElem?_other g i q.2 f hij]
  · rw [if_neg hk]

theorem lookupCD_insertCD_self (cd : ClassDefs) (n : Str) (v : Str × Nat) :
    lookupCD (insertCD cd n v) n = some v := by
  induction cd with
  | nil =>
    rw [show insertCD [] n v = [(n, v)] from rfl, lookupCD_cons]
    simp
  | cons p rest ih =>
    show lookupCD (if p.1 = n then (n, v) :: rest else p :: insertCD rest n v) n
      = some v
    by_cases hp : p.1 = n
    · rw [if_pos hp, lookupCD_cons]
      simp
    · rw [if_neg hp, lookupCD_cons, if_neg hp]
      exact ih

theorem lookupCD_insertCD_other {cd : ClassDefs} {m n : Str} (h : m ≠ n)
    (v : Str × Nat) : lookupCD (insertCD cd n v) m = lookupCD cd m := by
  have hnm : ¬ n = m := fun he => h he.symm
  induction cd with
  | nil =>
    rw [show insertCD [] n v = [(n, v)] from rfl, lookupCD_cons, lookupCD_nil,
      if_neg hnm]
  | cons p rest ih =>
    show lookupCD (if p.1 = n then (n, v) :: rest else p :: insertCD rest n v) m
      = lookupCD (p :: rest) m
    by_cases hp : p.1 = n
    · have hpm : ¬ p.1 = m := by rw [hp]; exact hnm
      rw [if_pos hp, lookupCD_cons, lookupCD_cons, if_neg hnm, if_neg hpm]
    · rw [if_neg hp, lookupCD_cons, lookupCD_cons]
      by_cases hpm : p.1 = m
      · rw [if_pos hpm, if_pos hpm]
      · rw [if_neg hpm, if_neg hpm]
        exact ih

/-! ### Behavior of one merge step, per record kind -/

theorem getAt_some_lt {gs : Groups} {q : Str × Nat} {f : TypeDefLine}
    (h : getAt gs q = some f) :
    ∃ g, findGroup gs q.1 = some g ∧ q.2 < g.length ∧ g[q.2]? = some f := by
  unfold getAt at h
  cases hf : findGroup gs q.1 with
  | none => rw [hf] at h; exact absurd h (by simp)
  | some g =>
    rw [hf] at h
    have h2 : g[q.2]? = some f := h
    exact ⟨g, rfl, (List.getElem?_eq_some.mp h2).1, h2⟩

theorem processLine_struct_spec (S : PreState) {s : TypeDefLine}
    (hs : s.kind = TypeDefKind.Struct) :
    ∃ p : Str × Nat, p.1 = nsKey s ∧
      (processLine S s).classDefs = insertCD S.classDefs s.name p ∧
      getAt (processLine S s).groups p = some s ∧
      (∀ q f, getAt S.groups q = some f →
        q ≠ p ∧ getAt (processLine S s).groups q = some f) := by
  have hg := findGroup_ensureGroup_self S.groups (nsKey s)
  have hlen : groupLen (ensureGroup S.groups (nsKey s)) (nsKey s)
      = ((findGroup S.groups (nsKey s)).getD []).length := by
    simp [groupLen, hg]
  refine ⟨(nsKey s, groupLen (ensureGroup S.groups (nsKey s)) (nsKey s)),
    rfl, ?_, ?_, ?_⟩
  · simp [processLine, hs]
  · simp only [processLine, hs]
    unfold getAt
    rw [findGroup_pushGroup, if_pos rfl, hg, hlen]
    show ((findGroup S.groups (nsKey s)).getD [] ++ [s])[((findGroup S.groups (nsKey s)).getD []).length]?
      = some s
    rw [List.getElem?_append, if_neg (by omega)]
    simp
  · intro q f hq
    constructor
    · intro he
      rw [he] at hq
      obtain ⟨g0, hg0, hlt, _⟩ := getAt_some_lt hq
      simp only at hg0 hlt
      rw [hg0] at hlen
      simp at hlen
      omega
    · show getAt (processLine S s).groups q = some f
      simp only [processLine, hs]
      exact getAt_pushGroup (getAt_ensureGroup hq _) _ _

theorem processLine_impl_registered {S : PreState} {l : TypeDefLine}
    (hl : l.kind = TypeDefKind.Impl) {p : Str × Nat}
    (hreg : lookupCD S.classDefs l.name = some p) {e : TypeDefLine}
    (hget : getAt S.groups p = some e) :
    (processLine S l).classDefs = S.classDefs ∧
    getAt (processLine S l).groups p
      = some { e with defn := appendDef e.defn l.defn } ∧
    (∀ q f, q ≠ p → getAt S.groups q = some f →
      getAt (processLine S l).groups q = some f) := by
  refine ⟨by simp [processLine, hl, hreg], ?_, ?_⟩
  · show getAt (processLine S l).groups p = _
    simp only [processLine, hl, hreg]
    have := getAt_modifyGroup_self (ensureGroup S.groups (nsKey l)) p.1 p.2
      (fun e => { e with defn := appendDef e.defn l.defn })
    rw [show ((p.1, p.2) : Str × Nat) = p from rfl] at this
    rw [this, getAt_ensureGroup hget]
    rfl
  · intro q f hq hf
    show getAt (processLine S l).groups q = some f
    simp only [processLine, hl, hreg]
    rw [getAt_modifyGroup_other p.1 p.2 _ (by simpa using hq)]
    exact getAt_ensureGroup hf _

theorem processLine_impl_unregistered {S : PreState} {l : TypeDefLine}
    (hl : l.kind = TypeDefKind.Impl)
    (hreg : lookupCD S.classDefs l.name = none) :
    (processLine S l).classDefs = S.classDefs ∧
    (processLine S l).groups = ensureGroup S.groups (nsKey l) := by
  constructor <;> simp [processLine, hl, hreg]

theorem processLine_other_spec {S : PreState} {l : TypeDefLine}
    (h1 : l.kind ≠ TypeDefKind.Struct) (h2 : l.kind ≠ TypeDefKind.Impl) :
    (processLine S l).classDefs = S.classDefs ∧
    (processLine S l).groups
      = pushGroup (ensureGroup S.groups (nsKey l)) (nsKey l) l := by
  cases hk : l.kind <;> first
    | exact absurd hk h1
    | exact absurd hk h2
    | exact ⟨by simp [processLine, hk], by simp [processLine, hk]⟩

/-- Well-formedness of the merge state: every registered class pointer
refers to an existing record carrying the registered name. -/
def WF (S : PreState) : Prop :=
  ∀ Y p, lookupCD S.classDefs Y = some p →
    ∃ e, getAt S.groups p = some e ∧ e.name = Y

theorem WF_nil : WF ⟨[], []⟩ := by
  intro Y p h
  rw [lookupCD_nil] at h
  exact absurd h (by simp)

theorem WF_processLine {S : PreState} (hwf : WF S) (l : TypeDefLine) :
    WF (processLine S l) := by
  by_cases hs : l.kind = TypeDefKind.Struct
  · obtain ⟨p0, _, hcd, hget, hpres⟩ := processLine_struct_spec S hs
    intro Y p h
    rw [hcd] at h
    by_cases hY : Y = l.name
    · subst hY
      rw [lookupCD_insertCD_self] at h
      obtain rfl : p0 = p := by injection h
      exact ⟨l, hget, rfl⟩
    · rw [lookupCD_insertCD_other hY] at h
      obtain ⟨e, he, hn⟩ := hwf Y p h
      exact ⟨e, (hpres p e he).2, hn⟩
  · by_cases hi : l.kind = TypeDefKind.Impl
    · cases hreg : lookupCD S.classDefs l.name with
      | none =>
        obtain ⟨hcd, hgr⟩ := processLine_impl_unregistered hi hreg
        intro Y p h
        rw [hcd] at h
        obtain ⟨e, he, hn⟩ := hwf Y p h
        exact ⟨e, by rw [hgr]; exact getAt_ensureGroup he _, hn⟩
      | some p0 =>
        obtain ⟨e0, he0, hn0⟩ := hwf l.name p0 hreg
        obtain ⟨hcd, hself, hother⟩ := processLine_impl_registered hi hreg he0
        intro Y p h
        rw [hcd] at h
        by_cases hp : p = p0
        · subst hp
          obtain ⟨e, he, hn⟩ := hwf Y p h
          have : e = e0 := by
            rw [he0] at he
            exact (Option.some.inj he).symm
          subst this
          refine ⟨{ e with defn := appendDef e.defn l.defn }, hself, hn⟩
        · obtain ⟨e, he, hn⟩ := hwf Y p h
          exact ⟨e, hother p e hp he, hn⟩
    · obtain ⟨hcd, hgr⟩ := processLine_other_spec hs hi
      intro Y p h
      rw [hcd] at h
      obtain ⟨e, he, hn⟩ := hwf Y p h
      refine ⟨e, ?_, hn⟩
      rw [hgr]
      exact getAt_pushGroup (getAt_ensureGroup he _) _ _

theorem WF_processLines {S : PreState} (hwf : WF S) (ls : List TypeDefLine) :
    WF (processLines S ls) := by
  induction ls generalizing S with
  | nil => exact hwf
  | cons l ls2 ih => exact ih (WF_processLine hwf l)

/-- The `def` fragments of the `Impl` records named `X`, in order. -/
def implDefs (X : Str) (ls : List TypeDefLine) : List Str :=
  (ls.filter (fun l =>
    decide (l.kind = TypeDefKind.Impl ∧ l.name = X))).map (fun l => l.defn)

/-- Accumulation of impl fragments into a struct body. -/
def mergeDefs (d : Str) (ds : List Str) : Str :=
  ds.foldl appendDef d

theorem implDefs_cons_impl {l : TypeDefLine} {X : Str}
    (h1 : l.kind = TypeDefKind.Impl) (h2 : l.name = X) (ls : List TypeDefLine) :
    implDefs X (l :: ls) = l.defn :: implDefs X ls := by
  simp [implDefs, List.filter_cons, h1, h2]

theorem implDefs_cons_skip {l : TypeDefLine} {X : Str}
    (h : ¬ (l.kind = TypeDefKind.Impl ∧ l.name = X)) (ls : List TypeDefLine) :
    implDefs X (l :: ls) = implDefs X ls := by
  simp [implDefs, List.filter_cons, h]

/-- Processing a list of records preserves a registered struct slot: the
slot keeps its registration, accumulates exactly the defs of the impls
named after it, and every other slot holding a record with the tracked
name is untouched, provided no further struct re-registers the name. -/
theorem processLines_track {X : Str} :
    ∀ (post : List TypeDefLine) (S : PreState) (p : Str × Nat) (e : TypeDefLine),
    WF S → lookupCD S.classDefs X = some p →
    getAt S.groups p = some e → e.name = X →
    (∀ l ∈ post, l.kind = TypeDefKind.Struct → l.name ≠ X) →
    WF (processLines S post) ∧
    lookupCD (processLines S post).classDefs X = some p ∧
    getAt (processLines S post).groups p
      = some { e with defn := mergeDefs e.defn (implDefs X post) } ∧
    (∀ q f, q ≠ p → getAt S.groups q = some f → f.name = X →
      getAt (processLines S post).groups q = some f) := by
  intro post
  induction post with
  | nil =>
    intro S p e hwf hreg hget hname _
    exact ⟨hwf, hreg, by simpa [mergeDefs, implDefs] using hget,
      fun q f _ hf _ => hf⟩
  | cons l post' ih =>
    intro S p e hwf hreg hget hname hpost
    have hpost' : ∀ x ∈ post', x.kind = TypeDefKind.Struct → x.name ≠ X :=
      fun x hx => hpost x (List.mem_cons_of_mem l hx)
    have hwf' : WF (processLine S l) := WF_processLine hwf l
    by_cases hs : l.kind = TypeDefKind.Struct
    · have hlX : l.name ≠ X := hpost l (List.mem_cons_self _ _) hs
      obtain ⟨p0, _, hcd, _, hpres⟩ := processLine_struct_spec S hs
      have hreg' : lookupCD (processLine S l).classDefs X = some p := by
        rw [hcd, lookupCD_insertCD_other (fun he => hlX he.symm)]
        exact hreg
      have hget' : getAt (processLine S l).groups p = some e := (hpres p e hget).2
      have hskip : implDefs X (l :: post') = implDefs X post' :=
        implDefs_cons_skip (fun hc => by
          rw [hs] at hc
          exact absurd hc.1 (by simp)) post'
      obtain ⟨c1, c2, c3, c4⟩ :=
        ih (processLine S l) p e hwf' hreg' hget' hname hpost'
      refine ⟨c1, c2, by rw [show processLines S (l :: post')
        = processLines (processLine S l) post' from rfl, c3, hskip], ?_⟩
      intro q f hq hf hfn
      exact c4 q f hq (hpres q f hf).2 hfn
    · by_cases hi : l.kind = TypeDefKind.Impl
      · by_cases hlX : l.name = X
        · have hregX : lookupCD S.classDefs l.name = some p := by
            rw [hlX]; exact hreg
          obtain ⟨hcd, hself, hother⟩ := processLine_impl_registered hi hregX hget
          have hreg' : lookupCD (processLine S l).classDefs X = some p := by
            rw [hcd]; exact hreg
          obtain ⟨c1, c2, c3, c4⟩ :=
            ih (processLine S l) p { e with defn := appendDef e.defn l.defn }
              hwf' hreg' hself hname hpost'
          have hmerge : mergeDefs (appendDef e.defn l.defn) (implDefs X post')
              = mergeDefs e.defn (implDefs X (l :: post')) := by
            rw [implDefs_cons_impl hi hlX]
            rfl
          refine ⟨c1, c2, ?_, ?_⟩
          · rw [show processLines S (l :: post')
              = processLines (processLine S l) post' from rfl, c3, hmerge]
          · intro q f hq hf hfn
            exact c4 q f hq (hother q f hq hf) hfn
        · cases hreg0 : lookupCD S.classDefs l.name with
          | none =>
            obtain ⟨hcd, hgr⟩ := processLine_impl_unregistered hi hreg0
            have hreg' : lookupCD (processLine S l).classDefs X = some p := by
              rw [hcd]; exact hreg
            have hget' : getAt (processLine S l).groups p = some e := by
              rw [hgr]; exact getAt_ensureGroup hget _
            have hskip : implDefs X (l :: post') = implDefs X post' :=
              implDefs_cons_skip (fun hc => hlX hc.2) post'
            obtain ⟨c1, c2, c3, c4⟩ :=
              ih (processLine S l) p e hwf' hreg' hget' hname hpost'
            refine ⟨c1, c2, by rw [show processLines S (l :: post')
              = processLines (processLine S l) post' from rfl, c3, hskip], ?_⟩
            intro q f hq hf hfn
            apply c4 q f hq _ hfn
            rw [hgr]
            exact getAt_ensureGroup hf _
          | some p0 =>
            obtain ⟨e0, he0, hn0⟩ := hwf l.name p0 hreg0
            have hp0 : p0 ≠ p := by
              intro he
              rw [he, hget] at he0
              have : e = e0 := Option.some.inj he0
              rw [← this] at hn0
              exact hlX (hname ▸ hn0.symm ▸ rfl)
            obtain ⟨hcd, _, hother⟩ := processLine_impl_registered hi hreg0 he0
            have hreg' : lookupCD (processLine S l).classDefs X = some p := by
              rw [hcd]; exact hreg
            have hget' : getAt (processLine S l).groups p = some e :=
              hother p e (fun he => hp0 he.symm) hget
            have hskip : implDefs X (l :: post') = implDefs X post' :=
              implDefs_cons_skip (fun hc => hlX hc.2) post'
            obtain ⟨c1, c2, c3, c4⟩ :=
              ih (processLine S l) p e hwf' hreg' hget' hname hpost'
            refine ⟨c1, c2, by rw [show processLines S (l :: post')
              = processLines (processLine S l) post' from rfl, c3, hskip], ?_⟩
            intro q f hq hf hfn
            apply c4 q f hq _ hfn
            by_cases hqp0 : q = p0
            · subst hqp0
              rw [hf] at he0
              have : f = e0 := Option.some.inj he0
              rw [this] at hfn
              exact absurd (hn0 ▸ hfn : l.name = X) hlX
            · exact hother q f hqp0 hf
      · obtain ⟨hcd, hgr⟩ := processLine_other_spec hs hi
        have hreg' : lookupCD (processLine S l).classDefs X = some p := by
          rw [hcd]; exact hreg
        have hget' : getAt (processLine S l).groups p = some e := by
          rw [hgr]
          exact getAt_pushGroup (getAt_ensureGroup hget _) _ _
        have hskip : implDefs X (l :: post') = implDefs X post' :=
          implDefs_cons_skip (fun hc => hi hc.1) post'
        obtain ⟨c1, c2, c3, c4⟩ :=
          ih (processLine S l) p e hwf' hreg' hget' hname hpost'
        refine ⟨c1, c2, by rw [show processLines S (l :: post')
          = processLines (processLine S l) post' from rfl, c3, hskip], ?_⟩
        intro q f hq hf hfn
        apply c4 q f hq _ hfn
        rw [hgr]
        exact getAt_pushGroup (getAt_ensureGroup hf _) _ _

theorem processLines_append (S : PreState) (as bs : List TypeDefLine) :
    processLines S (as ++ bs) = processLines (processLines S as) bs := by
  unfold processLines
  rw [List.foldl_append]

theorem processLines_cons (S : PreState) (l : TypeDefLine) (ls : List TypeDefLine) :
    processLines S (l :: ls) = processLines (processLine S l) ls := rfl

theorem mem_of_getAt {gs : Groups} {p : Str × Nat} {e : TypeDefLine}
    (h : getAt gs p = some e) :
    ∃ g, findGroup gs p.1 = some g ∧ e ∈ g := by
  obtain ⟨g, hg, _, hel⟩ := getAt_some_lt h
  exact ⟨g, hg, List.getElem?_mem hel⟩

/-- The merged body of a struct that is never re-registered: after the
whole pass, its namespace group holds the struct with the defs of all
later impls named after it folded in, in order. -/
theorem preprocess_merge {pre post : List TypeDefLine} {sX : TypeDefLine}
    {X : Str} (hs : sX.kind = TypeDefKind.Struct) (hn : sX.name = X)
    (hpost : ∀ l ∈ post, l.kind = TypeDefKind.Struct → l.name ≠ X) :
    ∃ g, findGroup (preprocess (pre ++ sX :: post)) (nsKey sX) = some g ∧
      { sX with defn := mergeDefs sX.defn (implDefs X post) } ∈ g := by
  have hwf1 : WF (processLines ⟨[], []⟩ pre) := WF_processLines WF_nil pre
  obtain ⟨p0, hp0ns, hcd, hget, _⟩ :=
    processLine_struct_spec (processLines ⟨[], []⟩ pre) hs
  have hreg : lookupCD (processLine (processLines ⟨[], []⟩ pre) sX).classDefs X
      = some p0 := by
    rw [hcd, ← hn, lookupCD_insertCD_self]
  obtain ⟨_, _, hfinal, _⟩ := processLines_track post
    (processLine (processLines ⟨[], []⟩ pre) sX) p0 sX
    (WF_processLine hwf1 sX) hreg hget hn hpost
  unfold preprocess
  rw [processLines_append, processLines_cons]
  obtain ⟨g, hg, hmem⟩ := mem_of_getAt hfinal
  rw [hp0ns] at hg
  exact ⟨g, hg, hmem⟩

/-- When two structs share a name, the later registration wins: impls
between the two fold into the first, impls after the second fold into
the second, and the first accumulates nothing further. -/
theorem preprocess_latest_wins {pre mid post : List TypeDefLine}
    {s1 s2 : TypeDefLine} {X : Str}
    (h1k : s1.kind = TypeDefKind.Struct) (h1n : s1.name = X)
    (h2k : s2.kind = TypeDefKind.Struct) (h2n : s2.name = X)
    (hmid : ∀ l ∈ mid, l.kind = TypeDefKind.Struct → l.name ≠ X)
    (hpost : ∀ l ∈ post, l.kind = TypeDefKind.Struct → l.name ≠ X) :
    ∃ p1 p2 : Str × Nat, p1 ≠ p2 ∧ p1.1 = nsKey s1 ∧ p2.1 = nsKey s2 ∧
      getAt (processLines ⟨[], []⟩ (pre ++ s1 :: (mid ++ s2 :: post))).groups p1
        = some { s1 with defn := mergeDefs s1.defn (implDefs X mid) } ∧
      getAt (processLines ⟨[], []⟩ (pre ++ s1 :: (mid ++ s2 :: post))).groups p2
        = some { s2 with defn := mergeDefs s2.defn (implDefs X post) } := by
  have hwf1 : WF (processLines ⟨[], []⟩ pre) := WF_processLines WF_nil pre
  obtain ⟨p1, hp1ns, hcd1, hget1, _⟩ :=
    processLine_struct_spec (processLines ⟨[], []⟩ pre) h1k
  have hreg1 : lookupCD (processLine (processLines ⟨[], []⟩ pre) s1).classDefs X
      = some p1 := by
    rw [hcd1, ← h1n, lookupCD_insertCD_self]
  obtain ⟨hwf3, hreg3, hget3, _⟩ := processLines_track mid
    (processLine (processLines ⟨[], []⟩ pre) s1) p1 s1
    (WF_processLine hwf1 s1) hreg1 hget1 h1n hmid
  obtain ⟨p2, hp2ns, hcd4, hget4, hpres4⟩ :=
    processLine_struct_spec
      (processLines (processLine (processLines ⟨[], []⟩ pre) s1) mid) h2k
  obtain ⟨hne12, hget4_1⟩ := hpres4 p1 _ hget3
  have hreg4 : lookupCD (processLine
      (processLines (processLine (processLines ⟨[], []⟩ pre) s1) mid)
      s2).classDefs X = some p2 := by
    rw [hcd4, ← h2n, lookupCD_insertCD_self]
  obtain ⟨_, _, hfinal2, hfinal1⟩ := processLines_track post
    (processLine (processLines (processLine (processLines ⟨[], []⟩ pre) s1) mid) s2)
    p2 s2 (WF_processLine hwf3 s2) hreg4 hget4 h2n hpost
  have hchain : processLines ⟨[], []⟩ (pre ++ s1 :: (mid ++ s2 :: post))
      = processLines (processLine
          (processLines (processLine (processLines ⟨[], []⟩ pre) s1) mid) s2) post := by
    rw [processLines_append, processLines_cons, processLines_append,
      processLines_cons]
  refine ⟨p1, p2, hne12, hp1ns, hp2ns, ?_, ?_⟩
  · rw [hchain]
    exact hfinal1 p1 _ hne12 hget4_1 (by simpa using h1n)
  · rw [hchain]
    exact hfinal2

/-! ### Group contents are ordered kind/name subsequences -/

/-- The part of a record the ordering policy looks at. -/
def projKN (l : TypeDefLine) : TypeDefKind × Str := (l.kind, l.name)

def pairCmp (p q : TypeDefKind × Str) : Ordering :=
  match p.1 with
  | TypeDefKind.Struct =>
    match q.1 with
    | TypeDefKind.Struct => cmpStr p.2 q.2
    | _ => Ordering.lt
  | _ =>
    match q.1 with
    | TypeDefKind.Struct => Ordering.gt
    | _ => cmpStr p.2 q.2

def pairLe (p q : TypeDefKind × Str) : Prop := pairCmp p q ≠ Ordering.gt

theorem tdCmp_eq_pairCmp (a b : TypeDefLine) :
    tdCmp a b = pairCmp (projKN a) (projKN b) := rfl

theorem projKN_update_defn (e : TypeDefLine) (z : Str) :
    projKN { e with defn := z } = projKN e := rfl

theorem findGroup_ensureGroup_cases {gs : Groups} {k0 k : Str}
    {g : List TypeDefLine} (h : findGroup (ensureGroup gs k0) k = some g) :
    findGroup gs k = some g ∨ g = [] := by
  cases hf : findGroup gs k with
  | some g0 =>
    have h2 := findGroup_ensureGroup_of_some hf k0
    rw [h2] at h
    exact Or.inl h
  | none =>
    by_cases hk : k = k0
    · subst hk
      rw [findGroup_ensureGroup_self, hf] at h
      exact Or.inr (Option.some.inj h).symm
    · rw [findGroup_ensureGroup_other hk, hf] at h
      exact absurd h (by simp)

theorem groups_map_sublist :
    ∀ (ls : List TypeDefLine) (S : PreState) (A : List (TypeDefKind × Str)),
    (∀ k g, findGroup S.groups k = some g → List.Sublist (g.map projKN) A) →
    ∀ k g, findGroup (processLines S ls).groups k = some g →
      List.Sublist (g.map projKN) (A ++ ls.map projKN) := by
  intro ls
  induction ls with
  | nil =>
    intro S A hA k g hg
    simpa using hA k g hg
  | cons l ls2 ih =>
    intro S A hA k g hg
    rw [processLines_cons] at hg
    have hstep : ∀ k2 g2, findGroup (processLine S l).groups k2 = some g2 →
        List.Sublist (g2.map projKN) (A ++ [projKN l]) := by
      intro k2 g2 hg2
      have hpush : ∀ k0,
          findGroup (pushGroup (ensureGroup S.groups k0) k0 l) k2 = some g2 →
          List.Sublist (g2.map projKN) (A ++ [projKN l]) := by
        intro k0 hg0
        rw [findGroup_pushGroup] at hg0
        by_cases hk : k2 = k0
        · rw [if_pos hk] at hg0
          cases he : findGroup (ensureGroup S.groups k0) k2 with
          | none => rw [he] at hg0; exact absurd hg0 (by simp)
          | some ge =>
            rw [he] at hg0
            have : g2 = ge ++ [l] := (Option.some.inj hg0).symm
            subst this
            rw [List.map_append]
            rcases findGroup_ensureGroup_cases he with hcase | hcase
            · exact List.Sublist.append (hA k2 ge hcase) (List.Sublist.refl _)
            · subst hcase
              simpa using List.sublist_append_right A [projKN l]
        · rw [if_neg hk] at hg0
          rcases findGroup_ensureGroup_cases hg0 with hcase | hcase
          · exact (hA k2 g2 hcase).trans (List.sublist_append_left A _)
          · subst hcase
            simp
      by_cases hs : l.kind = TypeDefKind.Struct
      · revert hg2
        simp only [processLine, hs]
        exact hpush (nsKey l)
      · by_cases hi : l.kind = TypeDefKind.Impl
        · cases hreg : lookupCD S.classDefs l.name with
          | none =>
            rw [(processLine_impl_unregistered hi hreg).2] at hg2
            rcases findGroup_ensureGroup_cases hg2 with hcase | hcase
            · exact (hA k2 g2 hcase).trans (List.sublist_append_left A _)
            · subst hcase
              simp
          | some p0 =>
            revert hg2
            simp only [processLine, hi, hreg]
            intro hg2
            rw [findGroup_modifyGroup] at hg2
            by_cases hk : k2 = p0.1
            · rw [if_pos hk] at hg2
              cases he : findGroup (ensureGroup S.groups (nsKey l)) k2 with
              | none => rw [he] at hg2; exact absurd hg2 (by simp)
              | some ge =>
                rw [he] at hg2
                have hgm : g2 = modifyIdx ge p0.2
                    (fun e => { e with defn := appendDef e.defn l.defn }) :=
                  (Option.some.inj hg2).symm
                subst hgm
                rw [modifyIdx_map _ _ _ _ (fun e => projKN_update_defn e _)]
                rcases findGroup_ensureGroup_cases he with hcase | hcase
                · exact (hA k2 ge hcase).trans (List.sublist_append_left A _)
                · subst hcase
                  simp
            · rw [if_neg hk] at hg2
              rcases findGroup_ensureGroup_cases hg2 with hcase | hcase
              · exact (hA k2 g2 hcase).trans (List.sublist_append_left A _)
              · subst hcase
                simp
        · rw [(processLine_other_spec hs hi).2] at hg2
          exact hpush (nsKey l) hg2
    have := ih (processLine S l) (A ++ [projKN l]) hstep k g hg
    rwa [List.append_assoc] at this

theorem preprocess_group_pairwise (lines : List TypeDefLine)
    (hsor : lines.Pairwise tdLe) :
    ∀ k g, findGroup (preprocess lines) k = some g → g.Pairwise tdLe := by
  intro k g hg
  have hsub : List.Sublist (g.map projKN) (lines.map projKN) := by
    have := groups_map_sublist lines ⟨[], []⟩ [] ?_ k g hg
    · simpa using this
    · intro k2 g2 hg2
      rw [findGroup_nil] at hg2
      exact absurd hg2 (by simp)
  have hsorp : (lines.map projKN).Pairwise pairLe := by
    rw [List.pairwise_map]
    exact hsor.imp (fun {a b} h => h)
  have hgp : (g.map projKN).Pairwise pairLe := hsorp.sublist hsub
  rw [List.pairwise_map] at hgp
  exact hgp.imp (fun {a b} h => h)

/-! ### Loader and emitter outcomes -/

/-- The per-line accumulation step of the loader. -/
def loadStep (parse : Str → Option TypeDefLine)
    (acc : Option (List TypeDefLine)) (line : Str) : Option (List TypeDefLine) :=
  match acc with
  | none => none
  | some ds =>
    if line.isEmpty then some ds
    else
      match parse line with
      | none => none
      | some d => some (ds ++ [d])

theorem loadRecords_eq_foldl (content : Str) (parse : Str → Option TypeDefLine) :
    loadRecords (some content) parse
      = (rlines content).foldl (loadStep parse) (some []) := rfl

theorem loadStep_foldl_none (parse : Str → Option TypeDefLine) (ls : List Str) :
    ls.foldl (loadStep parse) none = none := by
  induction ls with
  | nil => rfl
  | cons l ls2 ih => exact ih

theorem loadStep_foldl_bad (parse : Str → Option TypeDefLine) :
    ∀ (ls : List Str) (ds : List TypeDefLine),
    (∃ l ∈ ls, l ≠ [] ∧ parse l = none) →
    ls.foldl (loadStep parse) (some ds) = none := by
  intro ls
  induction ls with
  | nil =>
    intro ds h
    simp at h
  | cons l ls2 ih =>
    intro ds h
    by_cases hbad : l ≠ [] ∧ parse l = none
    · have hstep : loadStep parse (some ds) l = none := by
        simp only [loadStep]
        rw [if_neg (by simpa [List.isEmpty_iff] using hbad.1), hbad.2]
      show List.foldl (loadStep parse) (loadStep parse (some ds) l) ls2 = none
      rw [hstep]
      exact loadStep_foldl_none parse ls2
    · obtain ⟨x, hx, hxbad⟩ := h
      rcases List.mem_cons.mp hx with rfl | hx2
      · exact absurd hxbad hbad
      · show List.foldl (loadStep parse) (loadStep parse (some ds) l) ls2 = none
        cases hstep : loadStep parse (some ds) l with
        | none => exact loadStep_foldl_none parse ls2
        | some ds2 => exact ih ds2 ⟨x, hx2, hxbad⟩

theorem loadStep_foldl_good (parse : Str → Option TypeDefLine) :
    ∀ (ls : List Str) (ds : List TypeDefLine),
    (∀ l ∈ ls, l ≠ [] → (parse l).isSome) →
    ls.foldl (loadStep parse) (some ds)
      = some (ds ++ ls.filterMap (fun l => if l.isEmpty then none else parse l)) := by
  intro ls
  induction ls with
  | nil =>
    intro ds _
    simp
  | cons l ls2 ih =>
    intro ds h
    by_cases hl : l.isEmpty
    · have hstep : loadStep parse (some ds) l = some ds := by
        simp [loadStep, hl]
      show List.foldl (loadStep parse) (loadStep parse (some ds) l) ls2 = _
      rw [hstep, ih ds (fun x hx => h x (List.mem_cons_of_mem l hx)),
        List.filterMap_cons]
      simp [hl]
    · have hne : l ≠ [] := by simpa [List.isEmpty_iff] using hl
      obtain ⟨d, hd⟩ := Option.isSome_iff_exists.mp
        (h l (List.mem_cons_self _ _) hne)
      have hstep : loadStep parse (some ds) l = some (ds ++ [d]) := by
        simp [loadStep, hl, hd]
      show List.foldl (loadStep parse) (loadStep parse (some ds) l) ls2 = _
      rw [hstep, ih (ds ++ [d]) (fun x hx => h x (List.mem_cons_of_mem l hx)),
        List.filterMap_cons]
      simp [hl, hd]

theorem into_dts_nil (wh : Bool) :
    into_dts [] wh = Except.error (("No type definitions found").data) := rfl

theorem into_dts_ok {defs : List TypeDefLine} (h : defs ≠ []) (wh : Bool) :
    ∃ t, into_dts defs wh = Except.ok t ∧ endsNl t = true := by
  unfold into_dts
  rw [if_neg (by simpa [List.isEmpty_iff] using h)]
  refine ⟨_, rfl, ?_⟩
  by_cases he : endsNl ((if wh then TYPE_DEF_HEADER else []) ++ EXTERNAL_OBJECT_PREAMBLE
      |> fun d => (sortGroups (preprocess defs)).foldl (fun d2 p => emitGroup d2 p.1 p.2) d) = true
  · simpa [he] using he
  · rw [if_neg (by simpa using he)]
    exact endsNl_concat _

/-! ### Concrete records used by the claim instances -/

def fooStruct : TypeDefLine :=
  ⟨TypeDefKind.Struct, ("Foo").data, none, ("a: number").data, none, none⟩

def fooImpl : TypeDefLine :=
  ⟨TypeDefKind.Impl, ("Foo").data, none, ("bar(): void").data, none, none⟩

def constX : TypeDefLine :=
  ⟨TypeDefKind.Const, ("X").data, none, ("export const X = 1").data, none, none⟩

def fooStructTop : TypeDefLine :=
  ⟨TypeDefKind.Struct, ("Foo").data, none, ("a").data, none, none⟩

def fooImplNs : TypeDefLine :=
  ⟨TypeDefKind.Impl, ("Foo").data, none, ("b").data, none, some (("ns1").data)⟩

def structS1 : TypeDefLine :=
  ⟨TypeDefKind.Struct, ("S").data, none, ("one").data, none, none⟩

def structS2 : TypeDefLine :=
  ⟨TypeDefKind.Struct, ("S").data, none, ("two").data, none, none⟩

def sXA : TypeDefLine :=
  ⟨TypeDefKind.Struct, ("X").data, none, ("p").data, none, some (("A").data)⟩

def sXB : TypeDefLine :=
  ⟨TypeDefKind.Struct, ("X").data, none, ("q").data, none, some (("B").data)⟩

def iXA : TypeDefLine :=
  ⟨TypeDefKind.Impl, ("X").data, none, ("r").data, none, some (("A").data)⟩

def c1Expected : Str :=
  EXTERNAL_OBJECT_PREAMBLE
    ++ ("export class Foo \x7b\n  a: number\n  bar(): void\n\x7d\n\nexport const X = 1\n").data

def c4Expected : Str :=
  EXTERNAL_OBJECT_PREAMBLE
    ++ ("export class Foo \x7b\n  a: number\n\x7d\n\n").data

/-! ### Claim theorems -/

/-- C6: re-running the indentation normalizer on its own output with the
same base indent is a fixed point:
`correct_str_indent (correct_str_indent t n) n = correct_str_indent t n`. -/
theorem c6_indent_idempotent (t : Str) (n : Nat) :
    correct_str_indent (correct_str_indent t n) n = correct_str_indent t n :=
  correct_str_indent_idem t n

/-- C10: in the indentation normalizer, a non-comment trimmed line
ending in a closing brace processed at depth 0 is emitted with exactly
the base indent and leaves the depth at 0, so unbalanced closers never
underflow the guarded counter or disturb later lines. -/
theorem c10_no_underflow (n : Nat) (l : Str) (ls : List Str)
    (hne : trim l ≠ []) (hcom : (trim l).head? ≠ some '*')
    (hcl : (trim l).getLast? = some '\x7d') :
    indentLines n 0 (l :: ls) = (spaces n ++ trim l) :: indentLines n 0 ls :=
  indentLines_close_zero hne hcom hcl n ls

/-- Witness for C10 at the concrete line `"}"` with base indent 3. -/
theorem c10_no_underflow_witness :
    indentLines 3 0 [("\x7d").data] = (spaces 3 ++ trim (("\x7d").data)) :: indentLines 3 0 [] :=
  c10_no_underflow 3 (("\x7d").data) [] (by decide) (by decide) (by decide)

/-- C5 (amended): the per-line rules of the normalizer hold as stated
for non-comment lines — blanks are emitted fully empty, a non-comment
opener is indented at `n + depth*2` before the depth increments, a
non-comment closer at positive depth decrements before indenting, a
comment line gets one extra space and keeps the depth — and the output
ends with a newline whenever the input does; the converse direction of
the trailing-newline equivalence is dropped (it fails when the last
input line is whitespace-only). -/
theorem c5_line_rules :
    (∀ (n d : Nat) (l : Str) (ls : List Str),
      (trim l = [] → indentLines n d (l :: ls) = [] :: indentLines n d ls) ∧
      (trim l ≠ [] → (trim l).head? ≠ some '*' →
        (trim l).getLast? = some '\x7b' →
        indentLines n d (l :: ls)
          = (spaces (n + d * 2) ++ trim l) :: indentLines n (d + 1) ls) ∧
      (trim l ≠ [] → (trim l).head? ≠ some '*' →
        (trim l).getLast? = some '\x7d' → 0 < d →
        indentLines n d (l :: ls)
          = (spaces (n + (d - 1) * 2) ++ trim l) :: indentLines n (d - 1) ls) ∧
      (trim l ≠ [] → (trim l).head? = some '*' →
        indentLines n d (l :: ls)
          = (spaces (n + d * 2 + 1) ++ trim l) :: indentLines n d ls)) ∧
    (∀ (t : Str) (n : Nat), endsNl t = true →
      endsNl (correct_str_indent t n) = true) := by
  constructor
  · intro n d l ls
    exact ⟨fun hb => indentLines_blank hb n d ls,
      fun hne hcom hop => indentLines_open hne hcom hop n d ls,
      fun hne hcom hcl hd => indentLines_close_pos hne hcom hcl hd n ls,
      fun hne hcom => indentLines_comment hne hcom n d ls⟩
  · intro t n h
    exact correct_str_indent_endsNl h n

/-- Witness for C5 at a concrete opening line. -/
theorem c5_line_rules_witness :
    indentLines 0 0 [("a \x7b").data]
      = (spaces (0 + 0 * 2) ++ trim (("a \x7b").data)) :: indentLines 0 (0 + 1) [] :=
  (c5_line_rules.1 0 0 (("a \x7b").data) []).2.1 (by decide) (by decide) (by decide)

/-- C5 counterexample: the input `"\n "` does not end in a newline but
its normalization `"\n"` does, refuting the claimed `iff`. -/
theorem c5_counterexample :
    correct_str_indent (("\n ").data) 0 = ("\n").data ∧
    endsNl (("\n ").data) = false ∧
    endsNl (correct_str_indent (("\n ").data) 0) = true := by
  refine ⟨by rfl, by decide, by decide⟩

/-- C7: the loader fails whenever the source cannot be read or any
non-empty line fails to deserialize — one bad line aborts the whole
load and no record sequence is produced — and otherwise returns the
records of the non-empty lines in order, skipping empty lines. -/
theorem c7_loader :
    (∀ parse, loadRecords none parse = none) ∧
    (∀ content parse, (∃ l ∈ rlines content, l ≠ [] ∧ parse l = none) →
      loadRecords (some content) parse = none) ∧
    (∀ content parse, (∀ l ∈ rlines content, l ≠ [] → (parse l).isSome) →
      loadRecords (some content) parse
        = some ((rlines content).filterMap
            (fun l => if l.isEmpty then none else parse l))) := by
  refine ⟨fun _ => rfl, ?_, ?_⟩
  · intro content parse h
    rw [loadRecords_eq_foldl]
    exact loadStep_foldl_bad parse _ [] h
  · intro content parse h
    rw [loadRecords_eq_foldl]
    simpa using loadStep_foldl_good parse _ [] h

/-- Witness for C7: a concrete malformed second line aborts the load. -/
theorem c7_loader_witness :
    loadRecords (some (("G\nB").data))
      (fun l => if l = ("G").data then some fooStructTop else none) = none :=
  c7_loader.2.1 (("G\nB").data)
    (fun l => if l = ("G").data then some fooStructTop else none)
    ⟨("B").data, by decide, by decide, by decide⟩

/-- C8: with zero records `into_dts` fails with the descriptive error
"No type definitions found" before any text is produced, and with a
non-empty record set it succeeds. -/
theorem c8_empty_input :
    (∀ wh, into_dts [] wh
      = Except.error (("No type definitions found").data)) ∧
    (∀ (defs : List TypeDefLine) (wh : Bool), defs ≠ [] →
      ∃ t, into_dts defs wh = Except.ok t) := by
  refine ⟨fun wh => rfl, ?_⟩
  intro defs wh h
  obtain ⟨t, ht, _⟩ := into_dts_ok h wh
  exact ⟨t, ht⟩

/-- Witness for C8 on a concrete one-record input. -/
theorem c8_empty_input_witness :
    ∃ t, into_dts [fooStruct] false = Except.ok t :=
  c8_empty_input.2 [fooStruct] false (by decide)

/-- C1 (amended): for a Struct named X that no later record
re-registers (no later Struct named X), the merged body for X equals
the struct own def followed by the defs of the Impl records named X
that follow it, in input order, newline-joined with the separator
inserted only into a non-empty accumulator; and the concrete
Foo/impl/const scenario emits, after the fixed preamble, exactly the
class for Foo with the impl folded in followed by the const line. -/
theorem c1_merge :
    (∀ (pre post : List TypeDefLine) (sX : TypeDefLine) (X : Str),
      sX.kind = TypeDefKind.Struct → sX.name = X →
      (∀ l ∈ post, l.kind = TypeDefKind.Struct → l.name ≠ X) →
      ∃ g, findGroup (preprocess (pre ++ sX :: post)) (nsKey sX) = some g ∧
        { sX with defn := mergeDefs sX.defn (implDefs X post) } ∈ g) ∧
    into_dts (sortDefs [fooStruct, fooImpl, constX]) false
      = Except.ok c1Expected := by
  refine ⟨?_, by rfl⟩
  intro pre post sX X hs hn hpost
  exact preprocess_merge hs hn hpost

/-- Witness for C1 on the concrete scenario records. -/
theorem c1_merge_witness :
    ∃ g, findGroup (preprocess ([] ++ fooStruct :: [fooImpl])) (nsKey fooStruct)
        = some g ∧
      { fooStruct with
        defn := mergeDefs fooStruct.defn (implDefs (("Foo").data) [fooImpl]) } ∈ g :=
  c1_merge.1 [] [fooImpl] fooStruct (("Foo").data) (by decide) (by decide)
    (by decide)

/-- C1 counterexample: in the sorted sequence `[sXA, sXB, iXA]` the
Struct X of namespace A is followed by an Impl X of namespace A, yet
A's group keeps the bare body "p": the impl folded into the
more recently registered Struct X of namespace B instead. -/
theorem c1_counterexample :
    sortDefs [sXA, sXB, iXA] = [sXA, sXB, iXA] ∧
    findGroup (preprocess [sXA, sXB, iXA]) (("A").data) = some [sXA] ∧
    findGroup (preprocess [sXA, sXB, iXA]) (("B").data)
      = some [{ sXB with defn := ("q\nr").data }] ∧
    ¬ (∃ g, findGroup (preprocess [sXA, sXB, iXA]) (("A").data) = some g ∧
        { sXA with defn := mergeDefs sXA.defn [iXA.defn] } ∈ g) := by
  refine ⟨by rfl, by rfl, by rfl, ?_⟩
  intro ⟨g, hg, hmem⟩
  rw [show findGroup (preprocess [sXA, sXB, iXA]) (("A").data) = some [sXA]
    from by rfl] at hg
  obtain rfl : [sXA] = g := Option.some.inj hg
  revert hmem
  decide

/-- C2 (amended): an Impl record is folded into whatever record the
name registry currently holds under its name, regardless of either
record namespace; an Impl whose name is unregistered is dropped from
every group, but its namespace key still creates a possibly empty
group (emitted later as an empty namespace block). -/
theorem c2_impl_scoping :
    (∀ (S : PreState) (l : TypeDefLine) (p : Str × Nat) (e : TypeDefLine),
      l.kind = TypeDefKind.Impl →
      lookupCD S.classDefs l.name = some p →
      getAt S.groups p = some e →
      getAt (processLine S l).groups p
        = some { e with defn := appendDef e.defn l.defn }) ∧
    (∀ (S : PreState) (l : TypeDefLine),
      l.kind = TypeDefKind.Impl →
      lookupCD S.classDefs l.name = none →
      ∀ k, findGroup (processLine S l).groups k = findGroup S.groups k ∨
        (findGroup S.groups k = none ∧ k = nsKey l ∧
          findGroup (processLine S l).groups k = some [])) := by
  constructor
  · intro S l p e hi hreg hget
    exact (processLine_impl_registered hi hreg hget).2.1
  · intro S l hi hreg k
    rw [(processLine_impl_unregistered hi hreg).2]
    by_cases hk : k = nsKey l
    · cases hf : findGroup S.groups k with
      | some g => exact Or.inl (findGroup_ensureGroup_of_some hf (nsKey l))
      | none =>
        refine Or.inr ⟨rfl, hk, ?_⟩
        subst hk
        rw [findGroup_ensureGroup_self]
        simp [hf]
    · exact Or.inl (findGroup_ensureGroup_other hk)

/-- Witness for C2 on a concrete registered state. -/
theorem c2_impl_scoping_witness :
    getAt (processLine
        ⟨[(TOP_LEVEL_NAMESPACE, [fooStructTop])],
          [((("Foo").data), (TOP_LEVEL_NAMESPACE, 0))]⟩
        fooImplNs).groups (TOP_LEVEL_NAMESPACE, 0)
      = some { fooStructTop with
          defn := appendDef fooStructTop.defn fooImplNs.defn } :=
  c2_impl_scoping.1
    ⟨[(TOP_LEVEL_NAMESPACE, [fooStructTop])],
      [((("Foo").data), (TOP_LEVEL_NAMESPACE, 0))]⟩
    fooImplNs (TOP_LEVEL_NAMESPACE, 0) fooStructTop
    (by decide) (by rfl) (by rfl)

/-- C2 counterexample: an Impl named Foo carrying namespace ns1 folds
into the top-level Struct Foo (crossing the namespace boundary), and
its namespace key still contributes an empty `export namespace ns1`
block to the output — it does not contribute nothing. -/
theorem c2_counterexample :
    findGroup (preprocess [fooStructTop, fooImplNs]) TOP_LEVEL_NAMESPACE
      = some [{ fooStructTop with defn := ("a\nb").data }] ∧
    findGroup (preprocess [fooStructTop, fooImplNs]) (("ns1").data) = some [] ∧
    into_dts [fooStructTop, fooImplNs] false
      = Except.ok (EXTERNAL_OBJECT_PREAMBLE
          ++ ("export class Foo \x7b\n  a\n  b\n\x7d\n\nexport namespace ns1 \x7b\n\x7d\n").data) := by
  exact ⟨by rfl, by rfl, by rfl⟩

/-- C9: when two Structs share a name, the later registration wins:
impls with that name arriving between the two fold into the first,
impls arriving after the second fold only into the second, and the
first struct body is no longer modified. -/
theorem c9_latest_registration_wins {pre mid post : List TypeDefLine}
    {s1 s2 : TypeDefLine} {X : Str}
    (h1k : s1.kind = TypeDefKind.Struct) (h1n : s1.name = X)
    (h2k : s2.kind = TypeDefKind.Struct) (h2n : s2.name = X)
    (hmid : ∀ l ∈ mid, l.kind = TypeDefKind.Struct → l.name ≠ X)
    (hpost : ∀ l ∈ post, l.kind = TypeDefKind.Struct → l.name ≠ X) :
    ∃ p1 p2 : Str × Nat, p1 ≠ p2 ∧ p1.1 = nsKey s1 ∧ p2.1 = nsKey s2 ∧
      getAt (processLines ⟨[], []⟩ (pre ++ s1 :: (mid ++ s2 :: post))).groups p1
        = some { s1 with defn := mergeDefs s1.defn (implDefs X mid) } ∧
      getAt (processLines ⟨[], []⟩ (pre ++ s1 :: (mid ++ s2 :: post))).groups p2
        = some { s2 with defn := mergeDefs s2.defn (implDefs X post) } :=
  preprocess_latest_wins h1k h1n h2k h2n hmid hpost

/-- Witness for C9: two structs named S with one impl between and one
after. -/
theorem c9_latest_registration_wins_witness :
    ∃ p1 p2 : Str × Nat, p1 ≠ p2 ∧ p1.1 = nsKey structS1 ∧ p2.1 = nsKey structS2 ∧
      getAt (processLines ⟨[], []⟩
          ([] ++ structS1 ::
            ([⟨TypeDefKind.Impl, ("S").data, none, ("m").data, none, none⟩]
              ++ structS2 ::
                [⟨TypeDefKind.Impl, ("S").data, none, ("n").data, none, none⟩]))).groups p1
        = some { structS1 with
            defn := mergeDefs structS1.defn (implDefs (("S").data)
              [⟨TypeDefKind.Impl, ("S").data, none, ("m").data, none, none⟩]) } ∧
      getAt (processLines ⟨[], []⟩
          ([] ++ structS1 ::
            ([⟨TypeDefKind.Impl, ("S").data, none, ("m").data, none, none⟩]
              ++ structS2 ::
                [⟨TypeDefKind.Impl, ("S").data, none, ("n").data, none, none⟩]))).groups p2
        = some { structS2 with
            defn := mergeDefs structS2.defn (implDefs (("S").data)
              [⟨TypeDefKind.Impl, ("S").data, none, ("n").data, none, none⟩]) } :=
  c9_latest_registration_wins (by decide) (by decide) (by decide) (by decide)
    (by decide) (by decide)

/-- C4 (amended): for every non-empty record set the emitted text ends
with at least one trailing newline (one is appended exactly when the
accumulated text lacks one); it can end with more than one when the
last emitted fragment itself ends in a blank line. -/
theorem c4_trailing_newline (defs : List TypeDefLine) (wh : Bool)
    (h : defs ≠ []) :
    ∃ t, into_dts defs wh = Except.ok t ∧ endsNl t = true :=
  into_dts_ok h wh

/-- Witness for C4 on a concrete input. -/
theorem c4_trailing_newline_witness :
    ∃ t, into_dts [fooStruct] false = Except.ok t ∧ endsNl t = true :=
  c4_trailing_newline [fooStruct] false (by decide)

/-- C4 counterexample: a single struct record produces a text ending in
two newline characters, refuting "exactly one trailing newline". -/
theorem c4_counterexample :
    into_dts [fooStruct] false = Except.ok c4Expected ∧
    endsNl c4Expected = true ∧ endsNl c4Expected.dropLast = true := by
  exact ⟨by rfl, by decide, by decide⟩

/-- C3 (amended): the comparator is the described total preorder
(structs first, then names ascending), and in every namespace group of
the sorted-then-merged output the records are pairwise ordered by it:
structural records precede non-structural ones, structural names are
non-decreasing, and a strictly smaller structural name always appears
strictly earlier; the "iff" direction fails only for equal names. -/
theorem c3_ordering :
    (∀ a b : TypeDefLine,
      (a.kind = TypeDefKind.Struct → b.kind = TypeDefKind.Struct →
        tdCmp a b = cmpStr a.name b.name) ∧
      (a.kind = TypeDefKind.Struct → b.kind ≠ TypeDefKind.Struct →
        tdCmp a b = Ordering.lt) ∧
      (a.kind ≠ TypeDefKind.Struct → b.kind = TypeDefKind.Struct →
        tdCmp a b = Ordering.gt) ∧
      (a.kind ≠ TypeDefKind.Struct → b.kind ≠ TypeDefKind.Struct →
        tdCmp a b = cmpStr a.name b.name)) ∧
    (∀ a b c : TypeDefLine, tdLe a b → tdLe b c → tdLe a c) ∧
    (∀ a b : TypeDefLine, tdLe a b ∨ tdLe b a) ∧
    (∀ (defs : List TypeDefLine) (k : Str) (g : List TypeDefLine),
      findGroup (preprocess (sortDefs defs)) k = some g →
      List.Pairwise tdLe g ∧
      (∀ i j : Fin g.length, (i : Nat) < (j : Nat) →
        ((g.get j).kind = TypeDefKind.Struct →
          (g.get i).kind = TypeDefKind.Struct) ∧
        ((g.get i).kind = TypeDefKind.Struct →
          (g.get j).kind = TypeDefKind.Struct →
          cmpStr (g.get i).name (g.get j).name ≠ Ordering.gt)) ∧
      (∀ i j : Fin g.length,
        (g.get i).kind = TypeDefKind.Struct →
        (g.get j).kind = TypeDefKind.Struct →
        cmpStr (g.get i).name (g.get j).name = Ordering.lt →
        (i : Nat) < (j : Nat))) := by
  refine ⟨?_, fun a b c => tdLe_trans, tdLe_total, ?_⟩
  · intro a b
    exact ⟨tdCmp_struct_struct, tdCmp_struct_non, tdCmp_non_struct, tdCmp_non_non⟩
  · intro defs k g hg
    have hP : g.Pairwise tdLe :=
      preprocess_group_pairwise (sortDefs defs) (sortDefs_pairwise defs) k g hg
    have hget : ∀ i j : Fin g.length, (i : Nat) < (j : Nat) → tdLe (g.get i) (g.get j) :=
      fun i j hij => List.pairwise_iff_get.mp hP i j hij
    refine ⟨hP, ?_, ?_⟩
    · intro i j hij
      have hle := hget i j hij
      constructor
      · intro hjs
        by_contra his
        exact hle (tdCmp_non_struct his hjs)
      · intro his hjs
        rw [tdLe, tdCmp_struct_struct his hjs] at hle
        exact hle
    · intro i j his hjs hlt
      rcases Nat.lt_trichotomy (i : Nat) (j : Nat) with h | h | h
      · exact h
      · exfalso
        have : i = j := Fin.ext h
        subst this
        rw [cmpStr_self] at hlt
        exact absurd hlt (by simp)
      · exfalso
        have hle := hget j i h
        rw [tdLe, tdCmp_struct_struct hjs his] at hle
        exact hle ((cmpStr_gt_iff_lt _ _).mpr hlt)

/-- Witness for C3: the group ordering instantiated on a concrete
two-record input. -/
theorem c3_ordering_witness :
    List.Pairwise tdLe [fooStruct, constX] :=
  (c3_ordering.2.2.2 [constX, fooStruct] TOP_LEVEL_NAMESPACE
    [fooStruct, constX] (by rfl)).1

/-- C3 counterexample: two distinct Struct records with the same name
end up in the same group with one before the other, while neither name
is strictly less than the other — the claimed "iff" fails at equal
names. -/
theorem c3_counterexample :
    sortDefs [structS1, structS2] = [structS1, structS2] ∧
    findGroup (preprocess (sortDefs [structS1, structS2])) TOP_LEVEL_NAMESPACE
      = some [structS1, structS2] ∧
    structS1 ≠ structS2 ∧
    structS1.kind = TypeDefKind.Struct ∧
    structS2.kind = TypeDefKind.Struct ∧
    ¬ cmpStr structS1.name structS2.name = Ordering.lt := by
  exact ⟨by rfl, by rfl, by decide, by rfl, by rfl, by decide⟩

end Typedef
